import Mathlib

/-!
Verification of the animefs storage kernel against its specification.

The development shallowly embeds the Rust sources:
* the raw byte container (`src/filesystem/io.rs`) as a `List Nat` of bytes
  with `ioRead` / `ioWrite` / `ioAppend`,
* the page-header codec (`src/pages/page.rs`),
* the worker task semantics (`src/filesystem/tasks/worker.rs`),
* the buffered container (`src/io/buf.rs`),
* the task scheduler (`src/filesystem/tasks/scheduler.rs`),
* the book abstraction (`src/pages/book.rs`),
* the on-disk B-tree (`src/btree/record.rs`, `src/btree/tree.rs`).

Machine integers are modelled as `Nat`; the explicit `% 2 ^ 32` appears
exactly where the source performs a narrowing `as u32` cast or u32
arithmetic.  Fallible code (the buffered container's constructor, which can
panic, and the B-tree insert loop, whose termination is not structural)
returns `Option`.
-/

namespace Animefs

/-! ## Raw byte container (`FilesystemIo` in `src/filesystem/io.rs`)

A container is a list of bytes.  `read` returns exactly the requested
number of bytes, zero-filling past the end; `write` zero-fills any gap
before `offset` and then overwrites; `append` extends at the end. -/

/-- Low level direct read: exactly `len` bytes starting at `off`,
zero-filled where the container has no data. -/
def ioRead (c : List Nat) (off len : Nat) : List Nat :=
  (List.range len).map (fun i => c.getD (off + i) 0)

/-- Low level direct write: zero-fill up to `off` if needed, then
overwrite (extending the container when the write reaches past the end). -/
def ioWrite (c : List Nat) (off : Nat) (bs : List Nat) : List Nat :=
  c.take off ++ List.replicate (off - c.length) 0 ++ bs ++ c.drop (off + bs.length)

/-- Append bytes at the end of the container. -/
def ioAppend (c : List Nat) (bs : List Nat) : List Nat := c ++ bs

/-! ### Pointwise lemmas about `List.getD` -/

theorem getD_append (l m : List Nat) (i d : Nat) :
    (l ++ m).getD i d = if i < l.length then l.getD i d else m.getD (i - l.length) d := by
  simp only [List.getD_eq_getElem?_getD, List.getElem?_append]
  split <;> rfl

theorem getD_take (l : List Nat) (n i : Nat) :
    (l.take n).getD i 0 = if i < n then l.getD i 0 else 0 := by
  simp only [List.getD_eq_getElem?_getD, List.getElem?_take]
  split <;> rfl

theorem getD_drop (l : List Nat) (n i : Nat) :
    (l.drop n).getD i 0 = l.getD (n + i) 0 := by
  simp only [List.getD_eq_getElem?_getD, List.getElem?_drop]

@[simp] theorem getD_replicate_zero (n i : Nat) :
    (List.replicate n 0).getD i 0 = 0 := by
  simp only [List.getD_eq_getElem?_getD, List.getElem?_replicate]
  split <;> rfl

theorem getD_out_of_range {l : List Nat} {i : Nat} (h : l.length ≤ i) (d : Nat) :
    l.getD i d = d := by
  rw [List.getD_eq_getElem?_getD, List.getElem?_eq_none (by simpa using h)]
  rfl

@[simp] theorem ioRead_length (c : List Nat) (off len : Nat) :
    (ioRead c off len).length = len := by
  simp [ioRead]

theorem ioRead_getD (c : List Nat) (off len i : Nat) (h : i < len) :
    (ioRead c off len).getD i 0 = c.getD (off + i) 0 := by
  unfold ioRead
  rw [List.getD_eq_getElem?_getD, List.getElem?_map, List.getElem?_range h]
  rfl

theorem ioWrite_length (c : List Nat) (off : Nat) (bs : List Nat) :
    (ioWrite c off bs).length = max c.length (off + bs.length) := by
  unfold ioWrite
  simp [List.length_take, List.length_drop]
  omega

/-- Pointwise characterisation of `ioWrite`: inside the written window the
new bytes appear, everywhere else the (zero-extended) old container is
unchanged. -/
theorem getD_ioWrite (c : List Nat) (off : Nat) (bs : List Nat) (i : Nat) :
    (ioWrite c off bs).getD i 0 =
      if off ≤ i ∧ i < off + bs.length then bs.getD (i - off) 0
      else c.getD i 0 := by
  unfold ioWrite
  rw [List.append_assoc, List.append_assoc]
  rw [getD_append]
  simp only [List.length_take]
  by_cases h₁ : i < min off c.length
  · rw [if_pos (by omega), getD_take, if_pos (by omega), if_neg (by omega)]
  · rw [if_neg (by omega), getD_append]
    simp only [List.length_replicate]
    by_cases h₂ : i - min off c.length < off - c.length
    · -- in the zero-filled gap: both sides are 0
      rw [if_pos h₂, getD_replicate_zero, if_neg (by omega),
        getD_out_of_range (by omega)]
    · rw [if_neg h₂, getD_append]
      have hidx : i - min off c.length - (off - c.length) = i - off := by omega
      rw [hidx]
      by_cases h₃ : i - off < bs.length
      · rw [if_pos h₃, if_pos (by omega)]
      · rw [if_neg h₃, getD_drop, if_neg (by omega)]
        congr 1
        omega

theorem getD_ioAppend_left (c bs : List Nat) (i : Nat) (h : i < c.length) :
    (ioAppend c bs).getD i 0 = c.getD i 0 := by
  unfold ioAppend
  rw [getD_append, if_pos h]

/-- `ioRead` right after `ioWrite` at the same position returns the written
bytes. -/
theorem ioRead_ioWrite (c : List Nat) (off : Nat) (bs : List Nat) :
    ioRead (ioWrite c off bs) off bs.length = bs := by
  apply List.ext_getElem
  · simp
  · intro i h₁ h₂
    have h : i < bs.length := by simpa using h₂
    have hd := ioRead_getD (ioWrite c off bs) off bs.length i h
    rw [List.getD_eq_getElem?_getD, List.getElem?_eq_getElem h₁] at hd
    simp only [Option.getD_some] at hd
    rw [hd, getD_ioWrite, if_pos ⟨Nat.le_add_right _ _, by omega⟩,
      Nat.add_sub_cancel_left]
    rw [List.getD_eq_getElem?_getD, List.getElem?_eq_getElem h]
    rfl

/-! ## Page header codec (`PageHeader` in `src/pages/page.rs`)

9 bytes: `prev_page_number : u32 LE`, `next_page_number : u32 LE`, one flag
byte with bit 0 = `has_prev` and bit 1 = `has_next`. -/

structure PageHeader where
  prevPageNumber : Nat
  nextPageNumber : Nat
  hasPrev : Bool
  hasNext : Bool
deriving DecidableEq

/-- Little-endian encoding of a `u32` (values are reduced mod `2 ^ 32`,
matching how a `u32` field stores them). -/
def u32le (n : Nat) : List Nat :=
  [n % 256, n / 256 % 256, n / 65536 % 256, n / 16777216 % 256]

/-- Little-endian decoding of a `u32` at offset `off` of a byte list. -/
def readU32le (bs : List Nat) (off : Nat) : Nat :=
  bs.getD off 0 + 256 * bs.getD (off + 1) 0 + 65536 * bs.getD (off + 2) 0 +
    16777216 * bs.getD (off + 3) 0

/-- `PageHeader::to_bytes`. -/
def PageHeader.toBytes (h : PageHeader) : List Nat :=
  u32le h.prevPageNumber ++ u32le h.nextPageNumber ++
    [(if h.hasPrev then 1 else 0) + (if h.hasNext then 2 else 0)]

/-- `PageHeader::from_bytes` (the flag tests `b & 1 == 1` and `b & 2 == 2`
are `b % 2 = 1` and `b / 2 % 2 = 1` on byte values). -/
def PageHeader.fromBytes (bs : List Nat) : PageHeader where
  prevPageNumber := readU32le bs 0
  nextPageNumber := readU32le bs 4
  hasPrev := bs.getD 8 0 % 2 == 1
  hasNext := bs.getD 8 0 / 2 % 2 == 1

theorem PageHeader.toBytes_length (h : PageHeader) : h.toBytes.length = 9 := by
  simp [PageHeader.toBytes, u32le]

theorem PageHeader.fromBytes_toBytes (h : PageHeader)
    (hp : h.prevPageNumber < 2 ^ 32) (hn : h.nextPageNumber < 2 ^ 32) :
    PageHeader.fromBytes h.toBytes = h := by
  obtain ⟨p, n, bp, bn⟩ := h
  simp only [PageHeader.toBytes, u32le] at *
  cases bp <;> cases bn <;>
    · simp only [PageHeader.fromBytes, readU32le]
      simp [List.getD]
      norm_num at hp hn ⊢
      refine ⟨by omega, by omega⟩

/-! ## Worker task semantics (`src/filesystem/tasks/worker.rs`)

The worker owns the container; each task is a pure function of the
container (given the cached header's `page_size`).  `FS_HEADER_LEN = 10`,
`PAGE_HEADER_LEN = 9`. -/

/-- Byte position of the header of page `p`. -/
def hdrPos (ps p : Nat) : Nat := 10 + p * (9 + ps)

/-- Byte position of the body of page `p`. -/
def bodyPos (ps p : Nat) : Nat := hdrPos ps p + 9

/-- `FilesystemTask::ReadPageHeader`: decode 9 bytes at the page position. -/
def workerReadHeader (ps : Nat) (c : List Nat) (p : Nat) : PageHeader :=
  PageHeader.fromBytes (ioRead c (hdrPos ps p) 9)

/-- `FilesystemTask::LinkPageForward`: read the header of `p`, set
`next_page_number` and `has_next`, write it back. -/
def workerLinkForward (ps : Nat) (c : List Nat) (p next : Nat) : List Nat :=
  let h := workerReadHeader ps c p
  ioWrite c (hdrPos ps p)
    (PageHeader.toBytes { h with nextPageNumber := next, hasNext := true })

/-- `FilesystemTask::CreatePage`: compute the next page number from the
container length (a `u64` division truncated to `u32` by the source's
`as u32` cast), then append a fresh header and a zeroed body.  Returns the
new container and the page number sent back on the reply channel. -/
def workerCreatePage (ps : Nat) (c : List Nat) (parent : Option Nat) :
    List Nat × Nat :=
  let len := c.length
  let n : Nat :=
    if len > 10 then
      let total := (len - 10) / (9 + ps)
      if total * (9 + ps) < len - 10 then total % 2 ^ 32 + 1 else total % 2 ^ 32
    else 0
  let hdr : PageHeader :=
    { prevPageNumber := parent.getD 0
      nextPageNumber := 0
      hasPrev := parent.isSome
      hasNext := false }
  (ioAppend (ioAppend c hdr.toBytes) (List.replicate ps 0), n % 2 ^ 32)

/-- `FilesystemTask::ReadPage`: empty when `off ≥ page_size` or `len = 0`,
otherwise `min len (page_size - off)` bytes of the page body. -/
def workerReadPage (ps : Nat) (c : List Nat) (p off len : Nat) : List Nat :=
  if ps ≤ off ∨ len = 0 then []
  else if ps < off + len then ioRead c (bodyPos ps p + off) (ps - off)
  else ioRead c (bodyPos ps p + off) len

/-- `FilesystemTask::WritePage`: `hasReply` records whether a reply channel
was supplied; the second component is the bytes sent on it (`none` when
nothing is sent and the channel, if any, is dropped). -/
def workerWritePage (ps : Nat) (c : List Nat) (p off : Nat) (bs : List Nat)
    (hasReply : Bool) : List Nat × Option (List Nat) :=
  if ps ≤ off then
    (c, if hasReply then some bs else none)
  else if 0 < bs.length then
    if ps < off + bs.length then
      (ioWrite c (bodyPos ps p + off) (bs.take (ps - off)),
        if hasReply then some (bs.drop (ps - off)) else none)
    else
      (ioWrite c (bodyPos ps p + off) bs, none)
  else (c, none)

/-- `Page::write` (`src/pages/page.rs`): always supplies a reply channel and
maps a failed receive to the default empty vector.  Returns the new
container and the overflow tail handed back to the caller. -/
def pageWrite (ps : Nat) (c : List Nat) (p off : Nat) (bs : List Nat) :
    List Nat × List Nat :=
  let r := workerWritePage ps c p off bs true
  (r.1, r.2.getD [])

/-! ## Claims C3, C4, C5, C10: worker task semantics -/

/-- C3: `WritePage` semantics.  If `off ≥ page_size` the whole payload is
returned through the reply channel when one was supplied (dropped
otherwise) and nothing is written; if `off + len ≤ page_size` the payload
is written into the page body at `off` (a no-op for an empty payload) with
no reply; otherwise `bytes[..split]` with `split = page_size - off` is
written into the body and `bytes[split..]` is sent back on the reply
channel if present, else dropped. -/
theorem c3_worker_write_page (ps : Nat) (c : List Nat) (p off : Nat)
    (bs : List Nat) (hasReply : Bool) :
    (ps ≤ off →
      workerWritePage ps c p off bs hasReply =
        (c, if hasReply then some bs else none)) ∧
    (off < ps → 0 < bs.length → off + bs.length ≤ ps →
      workerWritePage ps c p off bs hasReply =
        (ioWrite c (bodyPos ps p + off) bs, none)) ∧
    (off < ps → bs = [] →
      workerWritePage ps c p off bs hasReply = (c, none)) ∧
    (off < ps → ps < off + bs.length →
      workerWritePage ps c p off bs hasReply =
        (ioWrite c (bodyPos ps p + off) (bs.take (ps - off)),
          if hasReply then some (bs.drop (ps - off)) else none)) := by
  refine ⟨fun h₁ => ?_, fun h₁ h₂ h₃ => ?_, fun h₁ h₂ => ?_, fun h₁ h₂ => ?_⟩
  · rw [workerWritePage, if_pos h₁]
  · rw [workerWritePage, if_neg (by omega), if_pos h₂, if_neg (by omega)]
  · subst h₂
    rw [workerWritePage, if_neg (by omega)]
    simp
  · rw [workerWritePage, if_neg (by omega), if_pos (by omega), if_pos h₂]

/-- Witness for C3 at a concrete input: page size 4, a straddling write at
offset 2 of three bytes splits after two bytes and replies with the third. -/
theorem c3_worker_write_page_wit :
    workerWritePage 4 (List.replicate 23 0) 0 2 [7, 8, 9] true =
      (ioWrite (List.replicate 23 0) (bodyPos 4 0 + 2) [7, 8], some [9]) := by
  have h := (c3_worker_write_page 4 (List.replicate 23 0) 0 2 [7, 8, 9] true).2.2.2
    (by decide) (by decide)
  rw [h]
  decide

/-- C5: `ReadPage` semantics.  The reply is empty when `off ≥ page_size` or
`len = 0`; otherwise it is exactly `min len (page_size - off)` bytes read
from the container at the page-body position plus `off` (zero-filled past
the end of the container); the reply never exceeds
`min len (page_size - off)` bytes. -/
theorem c5_worker_read_page (ps : Nat) (c : List Nat) (p off len : Nat) :
    ((ps ≤ off ∨ len = 0) → workerReadPage ps c p off len = []) ∧
    (off < ps → 0 < len →
      workerReadPage ps c p off len =
        ioRead c (bodyPos ps p + off) (min len (ps - off))) ∧
    (workerReadPage ps c p off len).length ≤ min len (ps - off) := by
  refine ⟨fun h₁ => ?_, fun h₁ h₂ => ?_, ?_⟩
  · rw [workerReadPage, if_pos h₁]
  · rw [workerReadPage, if_neg (by omega)]
    by_cases h₃ : ps < off + len
    · rw [if_pos h₃]
      congr 1
      omega
    · rw [if_neg h₃]
      congr 1
      omega
  · rw [workerReadPage]
    by_cases h₁ : ps ≤ off ∨ len = 0
    · rw [if_pos h₁]
      simp
    · rw [if_neg h₁]
      by_cases h₂ : ps < off + len
      · rw [if_pos h₂, ioRead_length]
        omega
      · rw [if_neg h₂, ioRead_length]
        omega

/-- Witness for C5 at a concrete input: page size 4, reading 9 bytes at
offset 1 returns the 3 = min 9 (4 - 1) bytes at body offset 1. -/
theorem c5_worker_read_page_wit :
    workerReadPage 4 (List.replicate 23 0) 0 1 9 =
      ioRead (List.replicate 23 0) (bodyPos 4 0 + 1) (min 9 (4 - 1)) :=
  (c5_worker_read_page 4 (List.replicate 23 0) 0 1 9).2.1 (by decide) (by decide)

/-- Counterexample to C10 as stated: with `page_size = 1`, the call
`Page::write(1, [])` has `off ≥ page_size` (so it is in none of the
claim's cases — the worker *does* send on the reply channel), yet the tail
returned to the caller is the empty vector, contradicting "the overflow
tail ... is the empty vector exactly in these cases". -/
theorem c10_page_write_tail_cex :
    (pageWrite 1 [] 0 1 []).2 = [] ∧
    ¬((1 : Nat) < 1 ∧ 1 + ([] : List Nat).length ≤ 1) ∧
    (workerWritePage 1 [] 0 1 [] true).2 = some [] := by
  decide

/-- C10 (amended): the worker sends nothing on the supplied reply channel
exactly when `off < page_size` and `off + bytes.len() ≤ page_size` (which
includes every empty payload with `off < page_size`), and `Page::write`
maps the failed receive to the default empty vector; the tail returned to
the caller is empty exactly in these cases *or* when the payload is empty
(an empty payload with `off ≥ page_size` is sent back through the channel
as an empty tail rather than dropped). -/
theorem c10_page_write_tail (ps : Nat) (c : List Nat) (p off : Nat)
    (bs : List Nat) :
    ((workerWritePage ps c p off bs true).2 = none ↔
      off < ps ∧ off + bs.length ≤ ps) ∧
    ((pageWrite ps c p off bs).2 = [] ↔
      bs = [] ∨ (off < ps ∧ off + bs.length ≤ ps)) := by
  constructor
  · rw [workerWritePage]
    by_cases h₁ : ps ≤ off
    · rw [if_pos h₁]
      simp
      omega
    · rw [if_neg h₁]
      by_cases h₂ : 0 < bs.length
      · rw [if_pos h₂]
        by_cases h₃ : ps < off + bs.length
        · rw [if_pos h₃]
          simp
          omega
        · rw [if_neg h₃]
          simp
          omega
      · rw [if_neg h₂]
        simp
        omega
  · rw [pageWrite, workerWritePage]
    by_cases h₁ : ps ≤ off
    · rw [if_pos h₁]
      simp only [if_true, Option.getD_some]
      constructor
      · intro h
        exact Or.inl h
      · rintro (h | h)
        · exact h
        · omega
    · rw [if_neg h₁]
      by_cases h₂ : 0 < bs.length
      · rw [if_pos h₂]
        by_cases h₃ : ps < off + bs.length
        · rw [if_pos h₃]
          simp only [if_true, Option.getD_some]
          constructor
          · intro h
            rw [List.drop_eq_nil_iff] at h
            omega
          · rintro (h | h)
            · subst h
              simp at h₂
            · omega
        · rw [if_neg h₃]
          simp only [Option.getD_none]
          constructor
          · intro _
            exact Or.inr ⟨by omega, by omega⟩
          · intro _
            trivial
      · rw [if_neg h₂]
        simp only [Option.getD_none]
        constructor
        · intro _
          exact Or.inl (List.length_eq_zero.mp (by omega))
        · intro _
          trivial

/-- Witness for the hypothesis-bearing parts is not needed (the statement
has no hypotheses); this companion instantiates the straddling case
concretely: writing 3 bytes at offset 2 of a 4-byte page returns a
nonempty tail. -/
theorem c10_page_write_tail_wit :
    ¬((pageWrite 4 (List.replicate 23 0) 0 2 [7, 8, 9]).2 = []) := by
  have h := (c10_page_write_tail 4 (List.replicate 23 0) 0 2 [7, 8, 9]).2
  rw [h]
  decide

/-- Modelled from the claim text of C4: the page number the claim says
`CreatePage` replies with, namely `n = (len - FS_HEADER_LEN) / stride`,
incremented when a partial page is present. -/
def specCreatePageNumber (ps len : Nat) : Nat :=
  let n := (len - 10) / (9 + ps)
  if n * (9 + ps) < len - 10 then n + 1 else n

/-- The page number produced by `CreatePage` is the claim's number reduced
mod `2 ^ 32` (`total_pages as u32`, and a wrapping u32 increment for the
partial-page case). -/
theorem workerCreatePage_num (ps : Nat) (c : List Nat) (parent : Option Nat) :
    (workerCreatePage ps c parent).2 =
      specCreatePageNumber ps c.length % 2 ^ 32 := by
  show (if 10 < c.length then _ else 0) % 2 ^ 32 = _
  rw [specCreatePageNumber]
  by_cases h : 10 < c.length
  · rw [if_pos h]
    split
    · rw [if_pos (by omega)]
      omega
    · rw [if_neg (by omega)]
      simp [Nat.mod_mod_of_dvd]
  · rw [if_neg h]
    have h10 : c.length - 10 = 0 := by omega
    rw [h10]
    norm_num

/-- Counterexample to C4 as stated: with `page_size = 1` (stride 10) and a
container of length `10 + 10 * 2^32`, the claim's page number is `2^32`,
but the source truncates `total_pages` with an `as u32` cast and replies
with page number `0`. -/
theorem c4_create_page_number_cex :
    (workerCreatePage 1 (List.replicate (10 + 10 * 2 ^ 32) 0) none).2 = 0 ∧
    specCreatePageNumber 1 (10 + 10 * 2 ^ 32) = 2 ^ 32 := by
  have h2 : specCreatePageNumber 1 (10 + 10 * 2 ^ 32) = 2 ^ 32 := by
    simp only [specCreatePageNumber]
    norm_num
  refine ⟨?_, h2⟩
  rw [workerCreatePage_num, List.length_replicate, h2]
  norm_num

/-- C4 (amended): `CreatePage` appends exactly one page header
(`prev = parent page number or 0`, `has_prev` set iff a parent was given,
`next = 0`, `has_next` false) followed by `page_size` zero bytes, strictly
increasing the container length by `PAGE_HEADER_LEN + page_size`; it
writes nothing into any existing page (the old container is untouched as a
prefix); and it replies with the claim's page number *reduced modulo
`2 ^ 32`* (page numbers are `u32`; the source casts with `as u32`). -/
theorem c4_create_page_spec (ps : Nat) (c : List Nat) (parent : Option Nat) :
    (workerCreatePage ps c parent).1 =
      c ++ PageHeader.toBytes
        { prevPageNumber := parent.getD 0, nextPageNumber := 0,
          hasPrev := parent.isSome, hasNext := false } ++
        List.replicate ps 0 ∧
    (workerCreatePage ps c parent).1.length = c.length + (9 + ps) ∧
    ((workerCreatePage ps c parent).1).take c.length = c ∧
    (workerCreatePage ps c parent).2 =
      specCreatePageNumber ps c.length % 2 ^ 32 := by
  refine ⟨rfl, ?_, ?_, workerCreatePage_num ps c parent⟩
  · show (ioAppend (ioAppend c _) _).length = _
    rw [ioAppend, ioAppend, List.length_append, List.length_append,
      PageHeader.toBytes_length, List.length_replicate]
    omega
  · show (ioAppend (ioAppend c _) _).take c.length = c
    rw [ioAppend, ioAppend, List.append_assoc]
    exact List.take_left' rfl

/-! ## Claim C6: the prefix-buffered container (`src/io/buf.rs`)

`BufStorageIO::new` reads the wrapped container's prefix into an in-memory
buffer.  When `0 < len < size` the source allocates the buffer with
`Vec::with_capacity(size)` — length 0 — and then executes
`buf[..len].copy_from_slice(&file)`, which panics (slice index out of
range).  The panic is modelled as `none`. -/

structure BufStorage where
  io : List Nat
  buf : List Nat
  size : Nat
deriving DecidableEq

/-- `BufStorageIO::new`: reads `size` bytes when the wrapped container is at
least that long; otherwise copies the whole container into the
zero-capacity buffer, which succeeds only when the container is empty and
panics (`none`) when `0 < len < size`. -/
def bufStorageNew (io : List Nat) (size : Nat) : Option BufStorage :=
  if size ≤ io.length then some { io := io, buf := ioRead io 0 size, size := size }
  else if io.length = 0 then some { io := io, buf := [], size := size }
  else none

/-- Evaluation of the failing input for C6: constructing a buffered
container with capacity 2 over a wrapped container holding one byte
panics (the source indexes `buf[..1]` on a length-0 vector), while the
claim requires construction to succeed with buffer `[7]`. -/
theorem c6_buf_storage_new_panics :
    bufStorageNew [7] 2 = none ∧
    bufStorageNew [] 2 = some { io := [], buf := [], size := 2 } ∧
    bufStorageNew [7, 8, 9] 2 = some { io := [7, 8, 9], buf := [7, 8], size := 2 } := by
  refine ⟨rfl, rfl, ?_⟩
  rw [bufStorageNew, if_pos (by decide)]
  decide

/-! ## Claims C7 and C9: the task scheduler
(`src/filesystem/tasks/scheduler.rs`)

The scheduler keeps three FIFO queues and a FIFO queue of pending pollers.
Tasks are opaque to it, so they are modelled by a type parameter.  A
poller is modelled by its observable behaviour: whether its reply channel
is already disconnected when examined, and whether a send on it succeeds. -/

inductive FilesystemTaskPriority where
  | High
  | Normal
  | Low
deriving DecidableEq

/-- The three priority queues of `FilesystemTasksScheduler`. -/
structure TaskQueues (τ : Type) where
  high : List τ
  normal : List τ
  low : List τ
deriving DecidableEq

/-- `FilesystemTasksScheduler::push`: append at the back of the matching
queue. -/
def TaskQueues.push {τ : Type} (s : TaskQueues τ) (t : τ)
    (pr : FilesystemTaskPriority) : TaskQueues τ :=
  match pr with
  | .High => { s with high := s.high ++ [t] }
  | .Normal => { s with normal := s.normal ++ [t] }
  | .Low => { s with low := s.low ++ [t] }

/-- `FilesystemTasksScheduler::push_front`: put back at the front of the
matching queue. -/
def TaskQueues.pushFront {τ : Type} (s : TaskQueues τ) (t : τ)
    (pr : FilesystemTaskPriority) : TaskQueues τ :=
  match pr with
  | .High => { s with high := t :: s.high }
  | .Normal => { s with normal := t :: s.normal }
  | .Low => { s with low := t :: s.low }

/-- `FilesystemTasksScheduler::poll`: pop the front of the
highest-priority nonempty queue. -/
def TaskQueues.poll {τ : Type} (s : TaskQueues τ) :
    Option ((τ × FilesystemTaskPriority) × TaskQueues τ) :=
  match s.high with
  | t :: ts => some ((t, .High), { s with high := ts })
  | [] =>
    match s.normal with
    | t :: ts => some ((t, .Normal), { s with normal := ts })
    | [] =>
      match s.low with
      | t :: ts => some ((t, .Low), { s with low := ts })
      | [] => none

/-- A pending poller, by id and observed channel behaviour. -/
structure Poller where
  id : Nat
  disconnected : Bool
  sendOk : Bool
deriving DecidableEq

/-- The hand-out loop inside `FilesystemTasksScheduler::update`: pop
pollers in FIFO order; skip disconnected ones; poll a task unless one is
already in hand; on a failed send keep the task in hand for the next
poller; when the queues run out, stop (the current poller is dropped by
the source, the rest stay queued); at the end push an unsent task back at
the front of its queue.  Returns the deliveries (poller id, task), the
pollers left in the queue, and the final queues. -/
def handLoop {τ : Type} :
    List Poller → TaskQueues τ → Option (τ × FilesystemTaskPriority) →
      List (Nat × τ) × List Poller × TaskQueues τ
  | [], qs, last =>
    ([], [],
      match last with
      | some (t, pr) => qs.pushFront t pr
      | none => qs)
  | po :: rest, qs, last =>
    if po.disconnected then handLoop rest qs last
    else
      match last with
      | some (t, pr) =>
        if po.sendOk then
          let r := handLoop rest qs none
          ((po.id, t) :: r.1, r.2.1, r.2.2)
        else handLoop rest qs (some (t, pr))
      | none =>
        match qs.poll with
        | some ((t, pr), qs') =>
          if po.sendOk then
            let r := handLoop rest qs' none
            ((po.id, t) :: r.1, r.2.1, r.2.2)
          else handLoop rest qs' (some (t, pr))
        | none => ([], rest, qs)

/-- A message drained from the scheduler's input channel during one
`update` pass. -/
inductive SchedMsg (τ : Type) where
  | pushTask (t : τ) (pr : FilesystemTaskPriority)
  | pollTask (po : Poller)

/-- Full scheduler state: the three queues plus the pending pollers. -/
structure SchedState (τ : Type) where
  queues : TaskQueues τ
  polls : List Poller

/-- `FilesystemTasksScheduler::update`: drain the input channel,
classifying pushes into the priority queues and polls onto the poller
queue, then run the hand-out loop.  Returns the deliveries of this pass
and the new state. -/
def schedUpdate {τ : Type} (msgs : List (SchedMsg τ)) (s : SchedState τ) :
    List (Nat × τ) × SchedState τ :=
  let s₁ := msgs.foldl
    (fun st m =>
      match m with
      | .pushTask t pr => { st with queues := st.queues.push t pr }
      | .pollTask po => { st with polls := st.polls ++ [po] })
    s
  if s₁.polls.isEmpty then ([], s₁)
  else
    let r := handLoop s₁.polls s₁.queues none
    (r.1, { queues := r.2.2, polls := r.2.1 })

/-- C7: scheduler priority order.  The scheduler hands tasks out only
through `poll`, which never yields a Normal task while a High task is
queued and never yields a Low task while a High or Normal task is queued;
within each priority level it pops the front of the queue while `push`
enqueues at the back, so tasks of one level are handed out in FIFO
enqueue order. -/
theorem c7_scheduler_priority {τ : Type} (s : TaskQueues τ) :
    (∀ t s', s.poll = some ((t, .Normal), s') → s.high = []) ∧
    (∀ t s', s.poll = some ((t, .Low), s') → s.high = [] ∧ s.normal = []) ∧
    (∀ t ts, s.high = t :: ts →
      s.poll = some ((t, .High), { s with high := ts })) ∧
    (∀ t ts, s.high = [] → s.normal = t :: ts →
      s.poll = some ((t, .Normal), { s with normal := ts })) ∧
    (∀ t ts, s.high = [] → s.normal = [] → s.low = t :: ts →
      s.poll = some ((t, .Low), { s with low := ts })) ∧
    (∀ t pr, (s.push t pr).high ++ (s.push t pr).normal ++ (s.push t pr).low =
      match pr with
      | .High => (s.high ++ [t]) ++ s.normal ++ s.low
      | .Normal => s.high ++ (s.normal ++ [t]) ++ s.low
      | .Low => s.high ++ s.normal ++ (s.low ++ [t])) := by
  obtain ⟨h, n, l⟩ := s
  refine ⟨?_, ?_, ?_, ?_, ?_, ?_⟩
  · intro t s' hp
    cases h with
    | nil => rfl
    | cons a as => simp [TaskQueues.poll] at hp
  · intro t s' hp
    cases h with
    | cons a as => simp [TaskQueues.poll] at hp
    | nil =>
      cases n with
      | cons a as => simp [TaskQueues.poll] at hp
      | nil => exact ⟨rfl, rfl⟩
  · intro t ts hh
    subst hh
    rfl
  · intro t ts hh hn
    subst hh
    subst hn
    rfl
  · intro t ts hh hn hl
    subst hh
    subst hn
    subst hl
    rfl
  · intro t pr
    cases pr <;> rfl

/-- Witness for C7 at a concrete input: with one High and one Normal task
queued, `poll` yields the High task (so the Normal-implies-no-High clause
applies vacuously, and the FIFO clause pops the queue head). -/
theorem c7_scheduler_priority_wit :
    (TaskQueues.poll { high := [10], normal := [20], low := [] } : Option ((Nat × FilesystemTaskPriority) × TaskQueues Nat)) =
      some ((10, .High), { high := [], normal := [20], low := [] }) :=
  (c7_scheduler_priority { high := [10], normal := [20], low := [] }).2.2.1 10 [] rfl

/-- All queued tasks in priority-then-FIFO order. -/
def TaskQueues.flat {τ : Type} (s : TaskQueues τ) : List τ :=
  s.high ++ s.normal ++ s.low

/-- Queues strictly above a priority are empty (holds for a task freshly
popped by `poll`, and is what lets `push_front` restore it to the global
front). -/
def aboveEmpty {τ : Type} (pr : FilesystemTaskPriority) (s : TaskQueues τ) :
    Prop :=
  match pr with
  | .High => True
  | .Normal => s.high = []
  | .Low => s.high = [] ∧ s.normal = []

theorem poll_flat {τ : Type} (s : TaskQueues τ) (t : τ)
    (pr : FilesystemTaskPriority) (s' : TaskQueues τ)
    (h : s.poll = some ((t, pr), s')) :
    s.flat = t :: s'.flat ∧ aboveEmpty pr s' := by
  obtain ⟨hh, n, l⟩ := s
  cases hh with
  | cons a as =>
    simp [TaskQueues.poll] at h
    obtain ⟨⟨ht, hpr⟩, hs⟩ := h
    subst ht
    subst hpr
    subst hs
    exact ⟨rfl, trivial⟩
  | nil =>
    cases n with
    | cons a as =>
      simp [TaskQueues.poll] at h
      obtain ⟨⟨ht, hpr⟩, hs⟩ := h
      subst ht
      subst hpr
      subst hs
      exact ⟨rfl, rfl⟩
    | nil =>
      cases l with
      | cons a as =>
        simp [TaskQueues.poll] at h
        obtain ⟨⟨ht, hpr⟩, hs⟩ := h
        subst ht
        subst hpr
        subst hs
        exact ⟨rfl, rfl, rfl⟩
      | nil => simp [TaskQueues.poll] at h

theorem poll_pushFront {τ : Type} (s : TaskQueues τ) (t : τ)
    (pr : FilesystemTaskPriority) (s' : TaskQueues τ)
    (h : s.poll = some ((t, pr), s')) :
    s'.pushFront t pr = s := by
  obtain ⟨hh, n, l⟩ := s
  cases hh with
  | cons a as =>
    simp [TaskQueues.poll] at h
    obtain ⟨⟨ht, hpr⟩, hs⟩ := h
    subst ht
    subst hpr
    subst hs
    rfl
  | nil =>
    cases n with
    | cons a as =>
      simp [TaskQueues.poll] at h
      obtain ⟨⟨ht, hpr⟩, hs⟩ := h
      subst ht
      subst hpr
      subst hs
      rfl
    | nil =>
      cases l with
      | cons a as =>
        simp [TaskQueues.poll] at h
        obtain ⟨⟨ht, hpr⟩, hs⟩ := h
        subst ht
        subst hpr
        subst hs
        rfl
      | nil => simp [TaskQueues.poll] at h

theorem pushFront_flat {τ : Type} (s : TaskQueues τ) (t : τ)
    (pr : FilesystemTaskPriority) (h : aboveEmpty pr s) :
    (s.pushFront t pr).flat = t :: s.flat := by
  obtain ⟨hh, n, l⟩ := s
  cases pr with
  | High => rfl
  | Normal =>
    have : hh = [] := h
    subst this
    rfl
  | Low =>
    obtain ⟨h₁, h₂⟩ := h
    have : hh = [] := h₁
    subst this
    have : n = [] := h₂
    subst this
    rfl

/-- The tasks pending at the start of a hand-out iteration: the task in
hand (if any) followed by the queues. -/
def pendingFlat {τ : Type} (last : Option (τ × FilesystemTaskPriority))
    (qs : TaskQueues τ) : List τ :=
  (match last with
   | some (t, _) => [t]
   | none => []) ++ qs.flat

theorem handLoop_nil {τ : Type} (qs : TaskQueues τ)
    (last : Option (τ × FilesystemTaskPriority)) :
    handLoop ([] : List Poller) qs last =
      ([], [],
        match last with
        | some (t, pr) => qs.pushFront t pr
        | none => qs) := rfl

theorem handLoop_disc {τ : Type} (po : Poller) (rest : List Poller)
    (qs : TaskQueues τ) (last : Option (τ × FilesystemTaskPriority))
    (h : po.disconnected = true) :
    handLoop (po :: rest) qs last = handLoop rest qs last := by
  simp [handLoop, h]

theorem handLoop_send {τ : Type} (po : Poller) (rest : List Poller)
    (qs : TaskQueues τ) (t : τ) (pr : FilesystemTaskPriority)
    (hd : po.disconnected = false) (hs : po.sendOk = true) :
    handLoop (po :: rest) qs (some (t, pr)) =
      ((po.id, t) :: (handLoop rest qs none).1,
        (handLoop rest qs none).2.1, (handLoop rest qs none).2.2) := by
  simp [handLoop, hd, hs]

theorem handLoop_sendfail {τ : Type} (po : Poller) (rest : List Poller)
    (qs : TaskQueues τ) (t : τ) (pr : FilesystemTaskPriority)
    (hd : po.disconnected = false) (hs : po.sendOk = false) :
    handLoop (po :: rest) qs (some (t, pr)) = handLoop rest qs (some (t, pr)) := by
  simp [handLoop, hd, hs]

theorem handLoop_poll_send {τ : Type} (po : Poller) (rest : List Poller)
    (qs : TaskQueues τ) (t : τ) (pr : FilesystemTaskPriority)
    (qs' : TaskQueues τ) (hd : po.disconnected = false) (hs : po.sendOk = true)
    (hp : qs.poll = some ((t, pr), qs')) :
    handLoop (po :: rest) qs none =
      ((po.id, t) :: (handLoop rest qs' none).1,
        (handLoop rest qs' none).2.1, (handLoop rest qs' none).2.2) := by
  simp [handLoop, hd, hs, hp]

theorem handLoop_poll_sendfail {τ : Type} (po : Poller) (rest : List Poller)
    (qs : TaskQueues τ) (t : τ) (pr : FilesystemTaskPriority)
    (qs' : TaskQueues τ) (hd : po.disconnected = false) (hs : po.sendOk = false)
    (hp : qs.poll = some ((t, pr), qs')) :
    handLoop (po :: rest) qs none = handLoop rest qs' (some (t, pr)) := by
  simp [handLoop, hd, hs, hp]

theorem handLoop_poll_none {τ : Type} (po : Poller) (rest : List Poller)
    (qs : TaskQueues τ) (hd : po.disconnected = false) (hp : qs.poll = none) :
    handLoop (po :: rest) qs none = ([], rest, qs) := by
  simp [handLoop, hd, hp]

theorem pendingFlat_some {τ : Type} (t : τ) (pr : FilesystemTaskPriority)
    (qs : TaskQueues τ) : pendingFlat (some (t, pr)) qs = t :: qs.flat := rfl

theorem pendingFlat_none {τ : Type} (qs : TaskQueues τ) :
    pendingFlat none qs = qs.flat := rfl

theorem handLoop_spec {τ : Type} :
    ∀ (polls : List Poller) (qs : TaskQueues τ)
      (last : Option (τ × FilesystemTaskPriority)),
      (∀ t pr, last = some (t, pr) → aboveEmpty pr qs) →
      (handLoop polls qs last).1.map Prod.snd =
        (pendingFlat last qs).take (handLoop polls qs last).1.length ∧
      (handLoop polls qs last).2.2.flat =
        (pendingFlat last qs).drop (handLoop polls qs last).1.length ∧
      List.Sublist ((handLoop polls qs last).1.map Prod.fst)
        (polls.map Poller.id) := by
  intro polls
  induction polls with
  | nil =>
    intro qs last hOK
    rw [handLoop_nil]
    refine ⟨rfl, ?_, List.nil_sublist _⟩
    match last with
    | none => rfl
    | some (t, pr) =>
      show (qs.pushFront t pr).flat = _
      rw [pushFront_flat qs t pr (hOK t pr rfl), pendingFlat_some]
      rfl
  | cons po rest ih =>
    intro qs last hOK
    by_cases hd : po.disconnected = true
    · rw [handLoop_disc po rest qs last hd]
      have h := ih qs last hOK
      exact ⟨h.1, h.2.1, h.2.2.trans (List.sublist_cons_self _ _)⟩
    · have hd' : po.disconnected = false := by simpa using hd
      cases last with
      | some tp =>
        obtain ⟨t, pr⟩ := tp
        by_cases hs : po.sendOk = true
        · rw [handLoop_send po rest qs t pr hd' hs]
          have h := ih qs none (by intro t' pr' hc; cases hc)
          refine ⟨?_, ?_, List.Sublist.cons₂ _ h.2.2⟩
          · simp only [List.map_cons, List.length_cons, pendingFlat_some]
            rw [h.1, pendingFlat_none]
            rfl
          · simp only [List.length_cons, pendingFlat_some]
            rw [h.2.1, pendingFlat_none]
            rfl
        · have hs' : po.sendOk = false := by simpa using hs
          rw [handLoop_sendfail po rest qs t pr hd' hs']
          have h := ih qs (some (t, pr)) hOK
          exact ⟨h.1, h.2.1, h.2.2.trans (List.sublist_cons_self _ _)⟩
      | none =>
        cases hpoll : qs.poll with
        | some x =>
          obtain ⟨⟨t, pr⟩, qs'⟩ := x
          have hfl := poll_flat qs t pr qs' hpoll
          by_cases hs : po.sendOk = true
          · rw [handLoop_poll_send po rest qs t pr qs' hd' hs hpoll]
            have h := ih qs' none (by intro t' pr' hc; cases hc)
            refine ⟨?_, ?_, List.Sublist.cons₂ _ h.2.2⟩
            · simp only [List.map_cons, List.length_cons, pendingFlat_none]
              rw [h.1, pendingFlat_none, hfl.1]
              rfl
            · simp only [List.length_cons, pendingFlat_none]
              rw [h.2.1, pendingFlat_none, hfl.1]
              rfl
          · have hs' : po.sendOk = false := by simpa using hs
            rw [handLoop_poll_sendfail po rest qs t pr qs' hd' hs' hpoll]
            have h := ih qs' (some (t, pr))
              (by intro t' pr' hc; injection hc with hc; cases hc; exact hfl.2)
            refine ⟨?_, ?_, h.2.2.trans (List.sublist_cons_self _ _)⟩
            · rw [h.1, pendingFlat_some, pendingFlat_none, hfl.1]
            · rw [h.2.1, pendingFlat_some, pendingFlat_none, hfl.1]
        | none =>
          rw [handLoop_poll_none po rest qs hd' hpoll]
          exact ⟨rfl, rfl, List.nil_sublist _⟩

/-- If every poller is disconnected or fails its send, nothing is
delivered and the queues are restored exactly (the dequeued task, if any,
is pushed back at the front of its original priority queue). -/
theorem handLoop_all_fail {τ : Type} :
    ∀ (polls : List Poller) (qs : TaskQueues τ)
      (last : Option (τ × FilesystemTaskPriority)),
      (∀ po ∈ polls, po.disconnected = true ∨ po.sendOk = false) →
      (handLoop polls qs last).1 = [] ∧
      (handLoop polls qs last).2.2 =
        (match last with
         | some (t, pr) => qs.pushFront t pr
         | none => qs) := by
  intro polls
  induction polls with
  | nil =>
    intro qs last _
    rw [handLoop_nil]
    exact ⟨rfl, rfl⟩
  | cons po rest ih =>
    intro qs last hfail
    have hpo := hfail po (List.mem_cons_self po rest)
    by_cases hd : po.disconnected = true
    · rw [handLoop_disc po rest qs last hd]
      exact ih qs last (fun p hp => hfail p (List.mem_cons_of_mem _ hp))
    · have hd' : po.disconnected = false := by simpa using hd
      have hs : po.sendOk = false := by
        rcases hpo with h | h
        · exact absurd h hd
        · exact h
      cases last with
      | some tp =>
        obtain ⟨t, pr⟩ := tp
        rw [handLoop_sendfail po rest qs t pr hd' hs]
        exact ih qs (some (t, pr)) (fun p hp => hfail p (List.mem_cons_of_mem _ hp))
      | none =>
        cases hpoll : qs.poll with
        | some x =>
          obtain ⟨⟨t, pr⟩, qs'⟩ := x
          rw [handLoop_poll_sendfail po rest qs t pr qs' hd' hs hpoll]
          have h := ih qs' (some (t, pr))
            (fun p hp => hfail p (List.mem_cons_of_mem _ hp))
          exact ⟨h.1, h.2.trans (poll_pushFront qs t pr qs' hpoll)⟩
        | none =>
          rw [handLoop_poll_none po rest qs hd' hpoll]
          exact ⟨rfl, rfl⟩

/-- C9: during a hand-out pass the dequeued tasks are delivered as a
prefix of the queued tasks (in priority-then-FIFO order) to pollers taken
in FIFO queue order (the delivered poller ids form a subsequence of the
poller queue, so a task refused by one poller is offered to the subsequent
ones); the final queues hold exactly the remaining tasks, so a dequeued
task is never dropped; and when no poller accepts — every poller
disconnected or failing its send — nothing is delivered and the queues
are restored exactly, the dequeued task going back to the front of its
original priority queue. -/
theorem c9_scheduler_redelivery {τ : Type} (polls : List Poller)
    (qs : TaskQueues τ) :
    ((handLoop polls qs none).1.map Prod.snd =
      qs.flat.take (handLoop polls qs none).1.length) ∧
    ((handLoop polls qs none).2.2.flat =
      qs.flat.drop (handLoop polls qs none).1.length) ∧
    List.Sublist ((handLoop polls qs none).1.map Prod.fst)
      (polls.map Poller.id) ∧
    ((∀ po ∈ polls, po.disconnected = true ∨ po.sendOk = false) →
      (handLoop polls qs none).1 = [] ∧ (handLoop polls qs none).2.2 = qs) := by
  have h := handLoop_spec polls qs none (by intro t pr hc; cases hc)
  exact ⟨h.1, h.2.1, h.2.2, fun hfail => handLoop_all_fail polls qs none hfail⟩

/-- Witness for C9 at a concrete input: one disconnected poller followed
by one whose send fails; with a High task queued nothing is delivered and
the queues come back unchanged. -/
theorem c9_scheduler_redelivery_wit :
    (handLoop [⟨1, true, true⟩, ⟨2, false, false⟩]
        ({ high := [99], normal := [], low := [] } : TaskQueues Nat) none).1 = [] ∧
    (handLoop [⟨1, true, true⟩, ⟨2, false, false⟩]
        ({ high := [99], normal := [], low := [] } : TaskQueues Nat) none).2.2 =
      { high := [99], normal := [], low := [] } :=
  (c9_scheduler_redelivery [⟨1, true, true⟩, ⟨2, false, false⟩]
      { high := [99], normal := [], low := [] }).2.2.2 (by decide)

/-! ## Claims C2 and C8: the on-disk B-tree
(`src/btree/record.rs`, `src/btree/tree.rs`)

Records are `RECORD_SIZE = KEY_SIZE + VALUE_SIZE + 9` bytes, slotted at
stride `RECORD_SHIFT = RECORD_SIZE - 4`; encoding is
`[left_addr:u32 BE][flags][key][value][right_addr:u32 BE]` with flag bits
`LEFT=8, KEY=2, VALUE=4, RIGHT=1`.  The insert loop walks slot records and
re-reads the current page on every outer iteration; the outer loop is
modelled with fuel (`none` = the loop is still running after `fuel`
iterations), and the slot walk with a fuel that callers instantiate at
`page_size + 1`, which can never be exhausted since each parsed record
consumes `RECORD_SHIFT ≥ 5` bytes of the page. -/

/-- Big-endian decoding of a `u32` from the first 4 bytes. -/
def readU32be (bs : List Nat) : Nat :=
  bs.getD 0 0 * 16777216 + bs.getD 1 0 * 65536 + bs.getD 2 0 * 256 + bs.getD 3 0

/-- Big-endian encoding of a `u32`. -/
def u32be (n : Nat) : List Nat :=
  [n / 16777216 % 256, n / 65536 % 256, n / 256 % 256, n % 256]

def recordSize (ks vs : Nat) : Nat := ks + vs + 9

def recordShift (ks vs : Nat) : Nat := ks + vs + 5

structure BTreeRecord where
  key : Option (List Nat)
  value : Option (List Nat)
  leftAddr : Option Nat
  rightAddr : Option Nat
deriving DecidableEq

/-- `GenericBTreeRecord::from_bytes`: `none` when fewer than `RECORD_SIZE`
bytes remain; otherwise decode the flagged fields and return the bytes
from offset `RECORD_SHIFT` on. -/
def recordFromBytes (ks vs : Nat) (bytes : List Nat) :
    Option (BTreeRecord × List Nat) :=
  if bytes.length < recordSize ks vs then none
  else
    let flags := bytes.getD 4 0
    some
      ({ key := if flags / 2 % 2 = 1 then some ((bytes.drop 5).take ks) else none
         value :=
           if flags / 4 % 2 = 1 then some ((bytes.drop (5 + ks)).take vs) else none
         leftAddr := if flags / 8 % 2 = 1 then some (readU32be bytes) else none
         rightAddr :=
           if flags % 2 = 1 then some (readU32be (bytes.drop (5 + ks + vs)))
           else none },
        bytes.drop (recordShift ks vs))

/-- `GenericBTreeRecord::to_bytes`. -/
def recordToBytes (ks vs : Nat) (r : BTreeRecord) : List Nat :=
  (match r.leftAddr with
   | some a => u32be a
   | none => List.replicate 4 0) ++
  [(if r.key.isSome then 2 else 0) + (if r.value.isSome then 4 else 0) +
    (if r.leftAddr.isSome then 8 else 0) + (if r.rightAddr.isSome then 1 else 0)] ++
  (match r.key with
   | some k => k
   | none => List.replicate ks 0) ++
  (match r.value with
   | some v => v
   | none => List.replicate vs 0) ++
  (match r.rightAddr with
   | some a => u32be a
   | none => List.replicate 4 0)

/-- `GenericBTree::max_records`. -/
def maxRecords (ks vs ps : Nat) : Nat :=
  let pages := ps / recordShift ks vs
  if pages * recordShift ks vs + (recordSize ks vs - recordShift ks vs) ≤ ps then
    pages
  else pages - 1

/-- Lexicographic strict order on byte arrays (Rust's `<` on `[u8; N]`
for the equal-length arrays the tree compares). -/
def bytesLt : List Nat → List Nat → Bool
  | [], [] => false
  | [], _ :: _ => true
  | _ :: _, [] => false
  | a :: as, b :: bs => if a < b then true else if b < a then false else bytesLt as bs

/-- Result of one pass of `GenericBTree::insert` over the current page:
either the insert returned, or the outer loop continues on page `curr`
with the (possibly mutated) container. -/
inductive WalkResult where
  | done (c : List Nat)
  | cont (c : List Nat) (curr : Nat)
deriving DecidableEq

/-- The slot walk of `GenericBTree::insert` (the inner `while let` loop
plus the post-loop logic), as a pure function of the container.  `i` is
the current slot offset, `prev` the last record passed over.  All
`WritePage` tasks are sent without a reply channel. -/
def insertWalk (ks vs ps : Nat) (key value : List Nat) (curr : Nat) :
    Nat → List Nat → List Nat → Nat → Option (Nat × BTreeRecord) →
      Option WalkResult
  | 0, _, _, _, _ => none
  | fuelW + 1, c, page, i, prev =>
    match recordFromBytes ks vs page with
    | none =>
      match prev with
      | some (j, record) =>
        match record.rightAddr with
        | some a => some (.cont c a)
        | none =>
          if j + recordShift ks vs + recordShift ks vs ≤ ps then
            some (.cont
              ((workerWritePage ps c curr (j + recordShift ks vs)
                (recordToBytes ks vs
                  { key := some key, value := some value,
                    leftAddr := none, rightAddr := none }) false).1)
              curr)
          else
            some (.cont
              ((workerWritePage ps (workerCreatePage ps c none).1 curr j
                (recordToBytes ks vs
                  { record with rightAddr := some (workerCreatePage ps c none).2 })
                false).1)
              (workerCreatePage ps c none).2)
      | none =>
        some (.done ((workerWritePage ps c curr 0
          (recordToBytes ks vs
            { key := some key, value := some value,
              leftAddr := none, rightAddr := none }) false).1))
    | some (record, rem) =>
      match record.key with
      | none =>
        some (.done ((workerWritePage ps c curr i
          (recordToBytes ks vs
            { key := some key, value := some value,
              leftAddr := none, rightAddr := none }) false).1))
      | some rk =>
        if rk = key then
          some (.done ((workerWritePage ps c curr i
            (recordToBytes ks vs { record with value := some value }) false).1))
        else if bytesLt key rk then
          match record.leftAddr with
          | some a => some (.cont c a)
          | none =>
            some (.cont
              ((workerWritePage ps (workerCreatePage ps c none).1 curr i
                (recordToBytes ks vs
                  { record with leftAddr := some (workerCreatePage ps c none).2 })
                false).1)
              (workerCreatePage ps c none).2)
        else
          insertWalk ks vs ps key value curr fuelW c rem
            (i + recordShift ks vs) (some (i, record))

/-- The outer loop of `GenericBTree::insert`: re-read the body of the
current page and run the slot walk, until the insert returns; `none` when
`fuel` outer iterations were not enough (in particular when the loop runs
forever). -/
def insertLoop (ks vs : Nat) :
    Nat → Nat → List Nat → List Nat → Nat → List Nat → Option (List Nat)
  | 0, _, _, _, _, _ => none
  | fuel + 1, ps, key, value, curr, c =>
    match insertWalk ks vs ps key value curr (ps + 1) c
        (workerReadPage ps c curr 0 ps) 0 none with
    | none => none
    | some (.done c') => some c'
    | some (.cont c' curr') => insertLoop ks vs fuel ps key value curr' c'

/-- `GenericBTree::insert` with entry page `entry`. -/
def btreeInsert (ks vs fuel ps entry : Nat) (key value : List Nat)
    (c : List Nat) : Option (List Nat) :=
  insertLoop ks vs fuel ps key value entry c

theorem insertLoop_succ (ks vs n ps : Nat) (key value : List Nat)
    (curr : Nat) (c : List Nat) :
    insertLoop ks vs (n + 1) ps key value curr c =
      match insertWalk ks vs ps key value curr (ps + 1) c
          (workerReadPage ps c curr 0 ps) 0 none with
      | none => none
      | some (.done c') => some c'
      | some (.cont c' curr') => insertLoop ks vs n ps key value curr' c' := rfl

/-- The records of one page body, in slot order, as the insert walk parses
them. -/
def pageRecords (ks vs : Nat) : Nat → List Nat → List BTreeRecord
  | 0, _ => []
  | f + 1, bytes =>
    match recordFromBytes ks vs bytes with
    | none => []
    | some (r, rem) => r :: pageRecords ks vs f rem

/-- In-order traversal of the tree's pages reachable from `page`,
collecting every slot record (fuel-bounded on depth). -/
def treeRecords (ks vs ps : Nat) (c : List Nat) : Nat → Nat → List BTreeRecord
  | 0, _ => []
  | f + 1, page =>
    (pageRecords ks vs (ps + 1) (workerReadPage ps c page 0 ps)).flatMap
      (fun r =>
        (match r.leftAddr with
         | some a => treeRecords ks vs ps c f a
         | none => []) ++
        [r] ++
        (match r.rightAddr with
         | some a => treeRecords ks vs ps c f a
         | none => []))

/-- The container of a freshly created B-tree: a 10-byte filesystem header
followed by one zeroed entry page (page 0), exactly what the repository's
test harness builds before the first insert. -/
def emptyTreeContainer (ps : Nat) : List Nat :=
  (workerCreatePage ps (List.replicate 10 0) none).1

/-! ### Claim C2: ascending inserts and the page count

With `KEY_SIZE = 1`, `VALUE_SIZE = 0` (`RECORD_SIZE = 10`,
`RECORD_SHIFT = 6`) and `page_size = 12`, `max_records = 1`: after the
ascending inserts of keys `[1]` then `[2]` the claim expects
`ceil (2 / 1) = 2` pages.  The source instead hits the room check
`prev_offset + 2 * RECORD_SHIFT ≤ page_size` (which ignores the trailing
4 `right_addr` bytes a full record needs), writes a *truncated* record at
slot 1 — the `WritePage` split drops the overflow because no reply channel
is supplied — and, since the truncated slot can never be parsed again and
the room-write branch does not return, the outer loop re-reads the page
and rewrites the same truncated record forever. -/

/-- The demo container after the first ascending insert: one full page
whose single parsable slot holds key `[1]`. -/
def c2AscFull : List Nat :=
  List.replicate 19 0 ++ [0, 0, 0, 0, 6, 1, 0, 0, 0, 0, 0, 0]

/-- The fixed point of the second insert's outer loop: the truncated
record `[0, 0, 0, 0, 6, 2]` (cut after 6 of its 10 bytes) sits at slot
offset 6 and is rewritten identically on every iteration. -/
def c2AscStuck : List Nat :=
  List.replicate 19 0 ++ [0, 0, 0, 0, 6, 1] ++ [0, 0, 0, 0, 6, 2]

theorem c2_walk_first :
    insertWalk 1 0 12 [2] [] 0 13 c2AscFull
        (workerReadPage 12 c2AscFull 0 0 12) 0 none =
      some (.cont c2AscStuck 0) := by
  decide

theorem c2_walk_fix :
    insertWalk 1 0 12 [2] [] 0 13 c2AscStuck
        (workerReadPage 12 c2AscStuck 0 0 12) 0 none =
      some (.cont c2AscStuck 0) := by
  decide

theorem c2_loop_stuck (fuel : Nat) :
    insertLoop 1 0 fuel 12 [2] [] 0 c2AscStuck = none := by
  induction fuel with
  | zero => rfl
  | succ n ih =>
    rw [insertLoop_succ, c2_walk_fix]
    exact ih

/-- C2 is violated by the code: at `KEY_SIZE = 1`, `VALUE_SIZE = 0`,
`page_size = 12` (`max_records = 1`), inserting the ascending keys `[1]`
then `[2]` into an empty tree leaves a single page after the first insert,
and the second insert never terminates (for every fuel the outer loop is
still running), so it never allocates the second page the claim's
`ceil (N / max_records)` formula demands. -/
theorem c2_ascending_insert_bug :
    maxRecords 1 0 12 = 1 ∧
    btreeInsert 1 0 1 12 0 [1] [] (emptyTreeContainer 12) = some c2AscFull ∧
    (c2AscFull.length - 10) / (9 + 12) = 1 ∧
    (∀ fuel, btreeInsert 1 0 fuel 12 0 [2] [] c2AscFull = none) ∧
    (2 + maxRecords 1 0 12 - 1) / maxRecords 1 0 12 = 2 := by
  refine ⟨by decide, by decide, by decide, ?_, by decide⟩
  intro fuel
  cases fuel with
  | zero => rfl
  | succ n =>
    rw [btreeInsert, insertLoop_succ, c2_walk_first]
    exact c2_loop_stuck n

/-! ### Claim C8: inserting the same key twice -/

/-- Extensionality for byte lists through `getD`. -/
theorem ext_getD {l m : List Nat} (hlen : l.length = m.length)
    (h : ∀ i, i < l.length → l.getD i 0 = m.getD i 0) : l = m := by
  apply List.ext_getElem hlen
  intro i h₁ h₂
  have hi := h i h₁
  rw [List.getD_eq_getElem?_getD, List.getD_eq_getElem?_getD,
    List.getElem?_eq_getElem h₁, List.getElem?_eq_getElem h₂] at hi
  simpa using hi

theorem workerWritePage_fit (ps : Nat) (c : List Nat) (p off : Nat)
    (bs : List Nat) (hr : Bool) (h₁ : off < ps) (h₂ : 0 < bs.length)
    (h₃ : off + bs.length ≤ ps) :
    workerWritePage ps c p off bs hr = (ioWrite c (bodyPos ps p + off) bs, none) := by
  rw [workerWritePage, if_neg (by omega), if_pos h₂, if_neg (by omega)]

theorem workerReadPage_body (ps : Nat) (c : List Nat) (p : Nat) (h : 0 < ps) :
    workerReadPage ps c p 0 ps = ioRead c (bodyPos ps p + 0) ps := by
  rw [workerReadPage, if_neg (by omega), if_neg (by omega)]

theorem ioRead_zero_of (c : List Nat) (off len : Nat)
    (h : ∀ j, c.getD j 0 = 0) : ioRead c off len = List.replicate len 0 := by
  apply ext_getD
  · simp
  · intro i hi
    rw [ioRead_getD _ _ _ _ (by simpa using hi), h, getD_replicate_zero]

/-- Reading a full window over a write whose surroundings are zero. -/
theorem ioRead_ioWrite_pad (c : List Nat) (off len : Nat) (bs : List Nat)
    (hlen : bs.length ≤ len)
    (hz : ∀ j, off + bs.length ≤ j → c.getD j 0 = 0) :
    ioRead (ioWrite c off bs) off len = bs ++ List.replicate (len - bs.length) 0 := by
  apply ext_getD
  · simp
    omega
  · intro i hi
    have hi' : i < len := by simpa using hi
    rw [ioRead_getD _ _ _ _ hi', getD_ioWrite, getD_append]
    by_cases h₁ : i < bs.length
    · rw [if_pos ⟨Nat.le_add_right _ _, by omega⟩, if_pos h₁,
        Nat.add_sub_cancel_left]
    · rw [if_neg (by omega), if_neg h₁, getD_replicate_zero,
        hz _ (by omega)]

theorem emptyTreeContainer_eq (ps : Nat) :
    emptyTreeContainer ps = List.replicate (19 + ps) 0 := by
  show ioAppend (ioAppend (List.replicate 10 0) _) (List.replicate ps 0) = _
  rw [show PageHeader.toBytes
      { prevPageNumber := (none : Option Nat).getD 0, nextPageNumber := 0,
        hasPrev := (none : Option Nat).isSome, hasNext := false } =
      List.replicate 9 0 from rfl]
  rw [ioAppend, ioAppend]
  rw [show (19 + ps) = 10 + 9 + ps from by omega]
  rw [List.replicate_add, List.replicate_add]

theorem getD_emptyTree (ps j : Nat) : (emptyTreeContainer ps).getD j 0 = 0 := by
  rw [emptyTreeContainer_eq, getD_replicate_zero]

theorem recordSize_le_of_maxRecords (ks vs ps : Nat)
    (h : 1 ≤ maxRecords ks vs ps) : recordSize ks vs ≤ ps := by
  rw [maxRecords] at h
  have hs : 0 < recordShift ks vs := by rw [recordShift]; omega
  have h4 : recordSize ks vs = recordShift ks vs + 4 := by
    rw [recordSize, recordShift]
  split at h
  · rename_i hc
    have h1 : recordShift ks vs ≤ ps := by
      by_contra hlt
      push_neg at hlt
      rw [Nat.div_eq_of_lt hlt] at h
      omega
    have hp1 : 1 * recordShift ks vs ≤
        (ps / recordShift ks vs) * recordShift ks vs :=
      Nat.mul_le_mul_right _ h
    rw [Nat.one_mul] at hp1
    have h4' : recordSize ks vs - recordShift ks vs = 4 := by omega
    rw [h4'] at hc
    omega
  · have h2 : 2 ≤ ps / recordShift ks vs := by omega
    have := (Nat.le_div_iff_mul_le hs).mp h2
    rw [recordSize, recordShift] at *
    omega

theorem recordToBytes_kv_cons (ks vs : Nat) (k v z : List Nat) :
    recordToBytes ks vs
        { key := some k, value := some v, leftAddr := none, rightAddr := none } ++ z =
      0 :: 0 :: 0 :: 0 :: 6 :: (k ++ (v ++ (0 :: 0 :: 0 :: 0 :: z))) := by
  show (List.replicate 4 0 ++ [2 + 4 + 0 + 0] ++ k ++ v ++ List.replicate 4 0) ++ z = _
  simp

theorem recordToBytes_kv_length (ks vs : Nat) (k v : List Nat)
    (hk : k.length = ks) (hv : v.length = vs) :
    (recordToBytes ks vs
      { key := some k, value := some v, leftAddr := none, rightAddr := none }).length =
      recordSize ks vs := by
  have hl := congrArg List.length (recordToBytes_kv_cons ks vs k v [])
  simp [hk, hv] at hl
  rw [recordSize]
  omega

theorem recordFromBytes_kv (ks vs : Nat) (k v z : List Nat)
    (hk : k.length = ks) (hv : v.length = vs) :
    recordFromBytes ks vs
        (recordToBytes ks vs
          { key := some k, value := some v, leftAddr := none, rightAddr := none } ++ z) =
      some ({ key := some k, value := some v, leftAddr := none, rightAddr := none },
        0 :: 0 :: 0 :: 0 :: z) := by
  rw [recordToBytes_kv_cons]
  rw [recordFromBytes]
  have hlen : (0 :: 0 :: 0 :: 0 :: 6 :: (k ++ (v ++ (0 :: 0 :: 0 :: 0 :: z)))).length =
      recordSize ks vs + z.length := by
    simp [recordSize, hk, hv]
    omega
  rw [if_neg (by omega)]
  have hflag : (0 :: 0 :: 0 :: 0 :: 6 :: (k ++ (v ++ (0 :: 0 :: 0 :: 0 :: z)))).getD 4 0 = 6 := rfl
  rw [hflag]
  norm_num
  refine ⟨⟨?_, ?_⟩, ?_⟩
  · show (k ++ (v ++ (0 :: 0 :: 0 :: 0 :: z))).take ks = k
    exact List.take_left' hk
  · show ((0 :: 0 :: 0 :: 0 :: 6 :: (k ++ (v ++ (0 :: 0 :: 0 :: 0 :: z)))).drop (5 + ks)).take vs = v
    rw [← List.drop_drop]
    show ((k ++ (v ++ (0 :: 0 :: 0 :: 0 :: z))).drop ks).take vs = v
    rw [List.drop_left' hk]
    exact List.take_left' hv
  · show (0 :: 0 :: 0 :: 0 :: 6 :: (k ++ (v ++ (0 :: 0 :: 0 :: 0 :: z)))).drop (recordShift ks vs) =
      0 :: 0 :: 0 :: 0 :: z
    rw [show recordShift ks vs = 5 + ks + vs from by rw [recordShift]; omega]
    rw [← List.drop_drop, ← List.drop_drop]
    show (((k ++ (v ++ (0 :: 0 :: 0 :: 0 :: z))).drop ks).drop vs) = _
    rw [List.drop_left' hk, List.drop_left' hv]

theorem recordFromBytes_zero (ks vs m : Nat) :
    recordFromBytes ks vs (List.replicate m 0) =
      if m < recordSize ks vs then none
      else some ({ key := none, value := none, leftAddr := none, rightAddr := none },
        List.replicate (m - recordShift ks vs) 0) := by
  rw [recordFromBytes]
  simp only [List.length_replicate, getD_replicate_zero]
  split
  · rfl
  · norm_num [List.drop_replicate]

theorem pageRecords_succ (ks vs f : Nat) (bytes : List Nat) :
    pageRecords ks vs (f + 1) bytes =
      match recordFromBytes ks vs bytes with
      | none => []
      | some (r, rem) => r :: pageRecords ks vs f rem := rfl

theorem pageRecords_replicate_zero (ks vs : Nat) :
    ∀ f m, ∀ r ∈ pageRecords ks vs f (List.replicate m 0),
      r = { key := none, value := none, leftAddr := none, rightAddr := none } := by
  intro f
  induction f with
  | zero =>
    intro m r hr
    simp [pageRecords] at hr
  | succ n ih =>
    intro m r hr
    rw [pageRecords_succ, recordFromBytes_zero] at hr
    by_cases hm : m < recordSize ks vs
    · rw [if_pos hm] at hr
      simp at hr
    · rw [if_neg hm] at hr
      rcases List.mem_cons.mp hr with h | h
      · exact h
      · exact ih _ r h

theorem treeRecords_succ (ks vs ps : Nat) (c : List Nat) (f page : Nat) :
    treeRecords ks vs ps c (f + 1) page =
      (pageRecords ks vs (ps + 1) (workerReadPage ps c page 0 ps)).flatMap
        (fun r =>
          (match r.leftAddr with
           | some a => treeRecords ks vs ps c f a
           | none => []) ++
          [r] ++
          (match r.rightAddr with
           | some a => treeRecords ks vs ps c f a
           | none => [])) := rfl

theorem flatMap_pure_of_leaf (L R : Nat → List BTreeRecord) :
    ∀ l : List BTreeRecord,
      (∀ r ∈ l, r.leftAddr = none ∧ r.rightAddr = none) →
      l.flatMap
        (fun r =>
          (match r.leftAddr with
           | some a => L a
           | none => []) ++
          [r] ++
          (match r.rightAddr with
           | some a => R a
           | none => [])) = l := by
  intro l
  induction l with
  | nil => intro _; rfl
  | cons r rest ih =>
    intro h
    obtain ⟨hl, hr⟩ := h r (List.mem_cons_self r rest)
    rw [List.flatMap_cons, hl, hr]
    simp only [List.nil_append, List.append_nil, List.singleton_append]
    rw [ih (fun r' hr' => h r' (List.mem_cons_of_mem _ hr'))]

theorem insertWalk_keyNone (ks vs ps : Nat) (k v : List Nat) (curr f : Nat)
    (c page : List Nat) (i : Nat) (prev : Option (Nat × BTreeRecord))
    (rec : BTreeRecord) (rem : List Nat)
    (h : recordFromBytes ks vs page = some (rec, rem)) (hkey : rec.key = none) :
    insertWalk ks vs ps k v curr (f + 1) c page i prev =
      some (.done ((workerWritePage ps c curr i
        (recordToBytes ks vs
          { key := some k, value := some v, leftAddr := none, rightAddr := none })
        false).1)) := by
  simp only [insertWalk, h, hkey]

theorem insertWalk_keyEq (ks vs ps : Nat) (k v : List Nat) (curr f : Nat)
    (c page : List Nat) (i : Nat) (prev : Option (Nat × BTreeRecord))
    (vOld : Option (List Nat)) (lA rA : Option Nat) (rem : List Nat)
    (h : recordFromBytes ks vs page =
      some ({ key := some k, value := vOld, leftAddr := lA, rightAddr := rA }, rem)) :
    insertWalk ks vs ps k v curr (f + 1) c page i prev =
      some (.done ((workerWritePage ps c curr i
        (recordToBytes ks vs
          { key := some k, value := some v, leftAddr := lA, rightAddr := rA })
        false).1)) := by
  simp only [insertWalk, h, if_pos]

theorem insertLoop_done (ks vs n ps : Nat) (key value : List Nat)
    (curr : Nat) (c c' : List Nat)
    (h : insertWalk ks vs ps key value curr (ps + 1) c
      (workerReadPage ps c curr 0 ps) 0 none = some (.done c')) :
    insertLoop ks vs (n + 1) ps key value curr c = some c' := by
  rw [insertLoop_succ, h]

/-- Counterexample to C8 as stated: the claim quantifies over *every*
pair of values, but with `v1 = v2 = [7]` (keys of size 1, values of size
1, `page_size = 11`) the surviving record's value *is* `v1`, so "`v1`
occurs in no record" fails even though both inserts behaved correctly. -/
theorem c8_duplicate_insert_cex :
    btreeInsert 1 1 1 11 0 [1] [7] (emptyTreeContainer 11) =
      some (List.replicate 19 0 ++ [0, 0, 0, 0, 6, 1, 7, 0, 0, 0, 0]) ∧
    btreeInsert 1 1 1 11 0 [1] [7]
        (List.replicate 19 0 ++ [0, 0, 0, 0, 6, 1, 7, 0, 0, 0, 0]) =
      some (List.replicate 19 0 ++ [0, 0, 0, 0, 6, 1, 7, 0, 0, 0, 0]) ∧
    ¬(∀ r ∈ treeRecords 1 1 11
        (List.replicate 19 0 ++ [0, 0, 0, 0, 6, 1, 7, 0, 0, 0, 0]) 1 0,
        r.value ≠ some [7]) := by
  refine ⟨by decide, by decide, ?_⟩
  intro h
  exact h { key := some [1], value := some [7], leftAddr := none, rightAddr := none }
    (by decide) rfl

/-- C8 (amended): after inserting `(k, v1)` and then `(k, v2)` into an
empty B-tree (with `max_records ≥ 1` so a record fits a page), the second
insert rewrites the matching record in place: the traversal of the tree's
pages holds exactly one record with key `k` and that record carries `v2`
(for all `v1`, `v2`), and — under the `v1 ≠ v2` proviso the counterexample
forces, scoped to this conjunct alone — `v1` occurs in no record. -/
theorem c8_duplicate_insert (ks vs ps : Nat) (k v1 v2 : List Nat)
    (hk : k.length = ks) (hv1 : v1.length = vs) (hv2 : v2.length = vs)
    (hmax : 1 ≤ maxRecords ks vs ps) :
    ∃ c1 c2,
      btreeInsert ks vs 1 ps 0 k v1 (emptyTreeContainer ps) = some c1 ∧
      btreeInsert ks vs 1 ps 0 k v2 c1 = some c2 ∧
      (treeRecords ks vs ps c2 1 0).filter (fun r => decide (r.key = some k)) =
        [{ key := some k, value := some v2, leftAddr := none, rightAddr := none }] ∧
      (v1 ≠ v2 → ∀ r ∈ treeRecords ks vs ps c2 1 0, r.value ≠ some v1) := by
  have hRS : recordSize ks vs ≤ ps := recordSize_le_of_maxRecords ks vs ps hmax
  have hps : 0 < ps := by rw [recordSize] at hRS; omega
  have hb1len := recordToBytes_kv_length ks vs k v1 hk hv1
  have hb2len := recordToBytes_kv_length ks vs k v2 hk hv2
  -- first insert: the zeroed entry page gets the fresh record at slot 0
  have hbody0 : workerReadPage ps (emptyTreeContainer ps) 0 0 ps =
      List.replicate ps 0 := by
    rw [workerReadPage_body _ _ _ hps]
    exact ioRead_zero_of _ _ _ (getD_emptyTree ps)
  have hparse0 : recordFromBytes ks vs (List.replicate ps 0) =
      some ({ key := none, value := none, leftAddr := none, rightAddr := none },
        List.replicate (ps - recordShift ks vs) 0) := by
    rw [recordFromBytes_zero, if_neg (by omega)]
  have hins1 : btreeInsert ks vs 1 ps 0 k v1 (emptyTreeContainer ps) =
      some (ioWrite (emptyTreeContainer ps) (bodyPos ps 0 + 0)
        (recordToBytes ks vs
          { key := some k, value := some v1, leftAddr := none, rightAddr := none })) := by
    show insertLoop ks vs 1 ps k v1 0 (emptyTreeContainer ps) = _
    refine insertLoop_done ks vs 0 ps k v1 0 _ _ ?_
    rw [hbody0,
      insertWalk_keyNone ks vs ps k v1 0 ps (emptyTreeContainer ps)
        (List.replicate ps 0) 0 none _ _ hparse0 rfl,
      workerWritePage_fit ps (emptyTreeContainer ps) 0 0 _ false hps
        (by rw [hb1len, recordSize]; omega) (by rw [hb1len]; omega)]
  -- second insert: the record with key `k` is found in slot 0 and updated
  have hbody1 : workerReadPage ps
      (ioWrite (emptyTreeContainer ps) (bodyPos ps 0 + 0)
        (recordToBytes ks vs
          { key := some k, value := some v1, leftAddr := none, rightAddr := none }))
      0 0 ps =
      recordToBytes ks vs
        { key := some k, value := some v1, leftAddr := none, rightAddr := none } ++
        List.replicate (ps - recordSize ks vs) 0 := by
    rw [workerReadPage_body _ _ _ hps,
      ioRead_ioWrite_pad _ _ _ _ (by rw [hb1len]; omega)
        (fun j _ => getD_emptyTree ps j),
      hb1len]
  have hins2 : btreeInsert ks vs 1 ps 0 k v2
      (ioWrite (emptyTreeContainer ps) (bodyPos ps 0 + 0)
        (recordToBytes ks vs
          { key := some k, value := some v1, leftAddr := none, rightAddr := none })) =
      some (ioWrite
        (ioWrite (emptyTreeContainer ps) (bodyPos ps 0 + 0)
          (recordToBytes ks vs
            { key := some k, value := some v1, leftAddr := none, rightAddr := none }))
        (bodyPos ps 0 + 0)
        (recordToBytes ks vs
          { key := some k, value := some v2, leftAddr := none, rightAddr := none })) := by
    show insertLoop ks vs 1 ps k v2 0 _ = _
    refine insertLoop_done ks vs 0 ps k v2 0 _ _ ?_
    rw [hbody1,
      insertWalk_keyEq ks vs ps k v2 0 ps _ _ 0 none (some v1) none none _
        (recordFromBytes_kv ks vs k v1 _ hk hv1),
      workerWritePage_fit ps _ 0 0 _ false hps
        (by rw [hb2len, recordSize]; omega) (by rw [hb2len]; omega)]
  -- the final page body and the traversal
  have hbody2 : workerReadPage ps
      (ioWrite
        (ioWrite (emptyTreeContainer ps) (bodyPos ps 0 + 0)
          (recordToBytes ks vs
            { key := some k, value := some v1, leftAddr := none, rightAddr := none }))
        (bodyPos ps 0 + 0)
        (recordToBytes ks vs
          { key := some k, value := some v2, leftAddr := none, rightAddr := none }))
      0 0 ps =
      recordToBytes ks vs
        { key := some k, value := some v2, leftAddr := none, rightAddr := none } ++
        List.replicate (ps - recordSize ks vs) 0 := by
    rw [workerReadPage_body _ _ _ hps,
      ioRead_ioWrite_pad _ _ _ _ (by rw [hb2len]; omega) ?_, hb2len]
    intro j hj
    rw [getD_ioWrite, if_neg (by rw [hb1len]; rw [hb2len] at hj; omega),
      getD_emptyTree]
  have htree : treeRecords ks vs ps
      (ioWrite
        (ioWrite (emptyTreeContainer ps) (bodyPos ps 0 + 0)
          (recordToBytes ks vs
            { key := some k, value := some v1, leftAddr := none, rightAddr := none }))
        (bodyPos ps 0 + 0)
        (recordToBytes ks vs
          { key := some k, value := some v2, leftAddr := none, rightAddr := none }))
      1 0 =
      { key := some k, value := some v2, leftAddr := none, rightAddr := none } ::
        pageRecords ks vs ps (List.replicate ((ps - recordSize ks vs) + 4) 0) := by
    have h1 := treeRecords_succ ks vs ps
      (ioWrite
        (ioWrite (emptyTreeContainer ps) (bodyPos ps 0 + 0)
          (recordToBytes ks vs
            { key := some k, value := some v1, leftAddr := none, rightAddr := none }))
        (bodyPos ps 0 + 0)
        (recordToBytes ks vs
          { key := some k, value := some v2, leftAddr := none, rightAddr := none }))
      0 0
    rw [hbody2, pageRecords_succ,
      recordFromBytes_kv ks vs k v2 _ hk hv2] at h1
    rw [show ((0 : Nat) :: 0 :: 0 :: 0 :: List.replicate (ps - recordSize ks vs) 0) =
      List.replicate ((ps - recordSize ks vs) + 4) 0 from rfl] at h1
    rw [flatMap_pure_of_leaf _ _ _ ?_] at h1
    · exact h1
    · intro r hr
      rcases List.mem_cons.mp hr with h | h
      · subst h
        exact ⟨rfl, rfl⟩
      · rw [pageRecords_replicate_zero ks vs ps _ r h]
        exact ⟨rfl, rfl⟩
  refine ⟨_, _, hins1, hins2, ?_, ?_⟩
  · rw [htree, List.filter_cons, if_pos (decide_eq_true rfl)]
    rw [List.filter_eq_nil_iff.mpr ?_]
    intro r hr
    rw [pageRecords_replicate_zero ks vs ps _ r hr]
    simp
  · intro hne r hr
    rw [htree] at hr
    rcases List.mem_cons.mp hr with h | h
    · subst h
      intro heq
      simp only [Option.some.injEq] at heq
      exact hne heq.symm
    · rw [pageRecords_replicate_zero ks vs ps _ r h]
      simp

/-- Witness for the amended C8 at a concrete input: keys of size 1, values
of size 1, `page_size = 11`, inserting `([1], [7])` then `([1], [8])`. -/
theorem c8_duplicate_insert_wit :
    ∃ c1 c2,
      btreeInsert 1 1 1 11 0 [1] [7] (emptyTreeContainer 11) = some c1 ∧
      btreeInsert 1 1 1 11 0 [1] [8] c1 = some c2 ∧
      (treeRecords 1 1 11 c2 1 0).filter (fun r => decide (r.key = some [1])) =
        [{ key := some [1], value := some [8], leftAddr := none, rightAddr := none }] ∧
      ([7] ≠ [8] → ∀ r ∈ treeRecords 1 1 11 c2 1 0, r.value ≠ some [7]) :=
  c8_duplicate_insert 1 1 11 [1] [7] [8] (by decide) (by decide) (by decide)
    (by decide)

/-! ## Claim C1: the Book round trip (`src/pages/book.rs`)

A Book is a view of the forward-linked page chain starting at an entry
page.  `Book::write` seeks to the page holding `offset` (creating and
linking missing pages on the way), writes the first chunk, and follows
the overflow tails through `create_next_page`; `Book::read` walks the
same chain.  The loops below are faithful: the seek loop requires
`0 < ps` to terminate exactly as the source's `while offset >= page_size`
does. -/

theorem fromBytes_toBytes_hasNext (h : PageHeader) :
    (PageHeader.fromBytes h.toBytes).hasNext = h.hasNext := by
  obtain ⟨p, n, bp, bn⟩ := h
  cases bp <;> cases bn <;>
    simp [PageHeader.toBytes, PageHeader.fromBytes, u32le, List.getD]

theorem fromBytes_toBytes_next (h : PageHeader) :
    (PageHeader.fromBytes h.toBytes).nextPageNumber = h.nextPageNumber % 2 ^ 32 := by
  obtain ⟨p, n, bp, bn⟩ := h
  simp only [PageHeader.toBytes, PageHeader.fromBytes, u32le, readU32le]
  cases bp <;> cases bn <;>
    · simp [List.getD]
      omega

/-- `Page::create_next_page`: follow the existing forward link, or create
a fresh page with `parent = self` and link forward to it. -/
def createNextPage (ps : Nat) (c : List Nat) (p : Nat) : List Nat × Nat :=
  if (workerReadHeader ps c p).hasNext then
    (c, (workerReadHeader ps c p).nextPageNumber)
  else
    (workerLinkForward ps (workerCreatePage ps c (some p)).1 p
      (workerCreatePage ps c (some p)).2,
      (workerCreatePage ps c (some p)).2)

/-- The seek loop shared by `Book::read` and `Book::write`: while
`offset ≥ page_size`, move to (or create) the next page. -/
def bookSeek (ps : Nat) (c : List Nat) (p off : Nat) : List Nat × Nat × Nat :=
  if h : 0 < ps ∧ ps ≤ off then
    bookSeek ps (createNextPage ps c p).1 (createNextPage ps c p).2 (off - ps)
  else (c, p, off)
termination_by off
decreasing_by omega

theorem workerReadPage_eq (ps : Nat) (c : List Nat) (p off len : Nat)
    (ho : off < ps) (hl : 0 < len) :
    workerReadPage ps c p off len = ioRead c (bodyPos ps p + off) (min len (ps - off)) := by
  rw [workerReadPage, if_neg (by omega)]
  by_cases h : ps < off + len
  · rw [if_pos h]
    congr 1
    omega
  · rw [if_neg h]
    congr 1
    omega

theorem workerReadPage_len_pos (ps : Nat) (c : List Nat) (p len : Nat)
    (hps : 0 < ps) (hl : 0 < len) :
    0 < (workerReadPage ps c p 0 len).length := by
  rw [workerReadPage_eq ps c p 0 len hps hl, ioRead_length]
  omega

/-- The tail returned by a page write at offset 0 is strictly shorter
than a nonempty input (`page_size > 0`). -/
theorem pageWrite_tail_lt (ps : Nat) (c : List Nat) (p : Nat) (tail : List Nat)
    (hps : 0 < ps) (ht : tail ≠ []) :
    (pageWrite ps c p 0 tail).2.length < tail.length := by
  have htl : 0 < tail.length := List.length_pos.mpr ht
  rw [pageWrite, workerWritePage, if_neg (by omega), if_pos htl]
  by_cases h : ps < 0 + tail.length
  · rw [if_pos h]
    simp
    omega
  · rw [if_neg h]
    simpa using htl

/-- The read loop of `Book::read`: after a short first read, follow
`create_next_page` and keep reading at offset 0. -/
def bookReadLoop (ps : Nat) (c : List Nat) (p len : Nat) : List Nat × List Nat :=
  if h : 0 < ps ∧ 0 < len then
    ((bookReadLoop ps (createNextPage ps c p).1 (createNextPage ps c p).2
        (len - (workerReadPage ps (createNextPage ps c p).1
          (createNextPage ps c p).2 0 len).length)).1,
      workerReadPage ps (createNextPage ps c p).1 (createNextPage ps c p).2 0 len ++
        (bookReadLoop ps (createNextPage ps c p).1 (createNextPage ps c p).2
          (len - (workerReadPage ps (createNextPage ps c p).1
            (createNextPage ps c p).2 0 len).length)).2)
  else (c, [])
termination_by len
decreasing_by
  have := workerReadPage_len_pos ps (createNextPage ps c p).1
    (createNextPage ps c p).2 len h.1 h.2
  omega

/-- The write loop of `Book::write`: while the overflow tail is nonempty,
follow `create_next_page` and write the tail at offset 0. -/
def bookWriteLoop (ps : Nat) (c : List Nat) (p : Nat) (tail : List Nat) : List Nat :=
  if h : 0 < ps ∧ tail ≠ [] then
    bookWriteLoop ps
      (pageWrite ps (createNextPage ps c p).1 (createNextPage ps c p).2 0 tail).1
      (createNextPage ps c p).2
      (pageWrite ps (createNextPage ps c p).1 (createNextPage ps c p).2 0 tail).2
  else c
termination_by tail.length
decreasing_by
  exact pageWrite_tail_lt ps (createNextPage ps c p).1 (createNextPage ps c p).2
    tail h.1 h.2

/-- `Book::read` over the book with entry page `e`. -/
def bookRead (ps : Nat) (c : List Nat) (e off len : Nat) : List Nat × List Nat :=
  ((bookReadLoop ps (bookSeek ps c e off).1 (bookSeek ps c e off).2.1
      (len - (workerReadPage ps (bookSeek ps c e off).1 (bookSeek ps c e off).2.1
        (bookSeek ps c e off).2.2 len).length)).1,
    workerReadPage ps (bookSeek ps c e off).1 (bookSeek ps c e off).2.1
      (bookSeek ps c e off).2.2 len ++
      (bookReadLoop ps (bookSeek ps c e off).1 (bookSeek ps c e off).2.1
        (len - (workerReadPage ps (bookSeek ps c e off).1 (bookSeek ps c e off).2.1
          (bookSeek ps c e off).2.2 len).length)).2)

/-- `Book::write` over the book with entry page `e`. -/
def bookWrite (ps : Nat) (c : List Nat) (e off : Nat) (bs : List Nat) : List Nat :=
  bookWriteLoop ps
    (pageWrite ps (bookSeek ps c e off).1 (bookSeek ps c e off).2.1
      (bookSeek ps c e off).2.2 bs).1
    (bookSeek ps c e off).2.1
    (pageWrite ps (bookSeek ps c e off).1 (bookSeek ps c e off).2.1
      (bookSeek ps c e off).2.2 bs).2

/-- Well-formed forward chain: `L` lists the page numbers reached from
`p` by following `has_next`/`next_page_number` links, ending at a page
with `has_next` unset; every page number is below the page count `T`. -/
def chainOk (ps : Nat) (c : List Nat) (T : Nat) : Nat → List Nat → Bool
  | _, [] => false
  | p, [q] =>
    p == q && decide (q < T) && !(workerReadHeader ps c q).hasNext
  | p, q :: r :: rest =>
    p == q && decide (q < T) && (workerReadHeader ps c q).hasNext &&
      (workerReadHeader ps c q).nextPageNumber == r && chainOk ps c T r (r :: rest)

/-- The byte of the book (entry chain `L`) at logical offset `i`: byte
`i % ps` of the body of the page at chain position `i / ps` (0 beyond the
chain). -/
def bookByte (ps : Nat) (c : List Nat) (L : List Nat) (i : Nat) : Nat :=
  match L[i / ps]? with
  | some q => c.getD (bodyPos ps q + i % ps) 0
  | none => 0

/-! ### Page region arithmetic -/

theorem hdr_in_bounds (ps q T : Nat) (h : q < T) :
    hdrPos ps q + 9 ≤ 10 + T * (9 + ps) := by
  have hm : (q + 1) * (9 + ps) ≤ T * (9 + ps) := Nat.mul_le_mul_right _ h
  rw [Nat.add_mul, Nat.one_mul] at hm
  rw [hdrPos]
  omega

theorem body_in_bounds (ps q T : Nat) (h : q < T) :
    bodyPos ps q + ps ≤ 10 + T * (9 + ps) := by
  have hm : (q + 1) * (9 + ps) ≤ T * (9 + ps) := Nat.mul_le_mul_right _ h
  rw [Nat.add_mul, Nat.one_mul] at hm
  rw [bodyPos, hdrPos]
  omega

theorem hdr_body_disjoint (ps p q i : Nat)
    (h₁ : bodyPos ps p ≤ i) (h₂ : i < bodyPos ps p + ps) :
    ¬(hdrPos ps q ≤ i ∧ i < hdrPos ps q + 9) := by
  rintro ⟨h₃, h₄⟩
  rw [bodyPos, hdrPos] at *
  rcases Nat.lt_or_ge p q with h | h
  · have hm : (p + 1) * (9 + ps) ≤ q * (9 + ps) := Nat.mul_le_mul_right _ h
    rw [Nat.add_mul, Nat.one_mul] at hm
    omega
  · have hm : q * (9 + ps) ≤ p * (9 + ps) := Nat.mul_le_mul_right _ h
    omega

theorem hdr_hdr_disjoint (ps p q i : Nat) (hne : p ≠ q)
    (h₁ : hdrPos ps p ≤ i) (h₂ : i < hdrPos ps p + 9) :
    ¬(hdrPos ps q ≤ i ∧ i < hdrPos ps q + 9) := by
  rintro ⟨h₃, h₄⟩
  rw [hdrPos] at *
  rcases Nat.lt_or_ge p q with h | h
  · have hm : (p + 1) * (9 + ps) ≤ q * (9 + ps) := Nat.mul_le_mul_right _ h
    rw [Nat.add_mul, Nat.one_mul] at hm
    omega
  · have h' : q < p := by omega
    have hm : (q + 1) * (9 + ps) ≤ p * (9 + ps) := Nat.mul_le_mul_right _ h'
    rw [Nat.add_mul, Nat.one_mul] at hm
    omega

theorem body_body_disjoint (ps p q i : Nat) (hne : p ≠ q)
    (h₁ : bodyPos ps p ≤ i) (h₂ : i < bodyPos ps p + ps) :
    ¬(bodyPos ps q ≤ i ∧ i < bodyPos ps q + ps) := by
  rintro ⟨h₃, h₄⟩
  rw [bodyPos, hdrPos] at *
  rcases Nat.lt_or_ge p q with h | h
  · have hm : (p + 1) * (9 + ps) ≤ q * (9 + ps) := Nat.mul_le_mul_right _ h
    rw [Nat.add_mul, Nat.one_mul] at hm
    omega
  · have h' : q < p := by omega
    have hm : (q + 1) * (9 + ps) ≤ p * (9 + ps) := Nat.mul_le_mul_right _ h'
    rw [Nat.add_mul, Nat.one_mul] at hm
    omega

/-! ### Header reads under container changes -/

theorem readHeader_congr (ps : Nat) (c c' : List Nat) (q : Nat)
    (h : ∀ kk, kk < 9 → c'.getD (hdrPos ps q + kk) 0 = c.getD (hdrPos ps q + kk) 0) :
    workerReadHeader ps c' q = workerReadHeader ps c q := by
  rw [workerReadHeader, workerReadHeader]
  congr 1
  apply ext_getD
  · simp
  · intro i hi
    have hi' : i < 9 := by simpa using hi
    rw [ioRead_getD _ _ _ _ hi', ioRead_getD _ _ _ _ hi', h i hi']

/-- A write entirely inside a page body leaves every header unchanged. -/
theorem readHeader_body_write (ps : Nat) (c : List Nat) (p off : Nat)
    (w : List Nat) (q : Nat) (hw : off + w.length ≤ ps) :
    workerReadHeader ps (ioWrite c (bodyPos ps p + off) w) q =
      workerReadHeader ps c q := by
  apply readHeader_congr
  intro kk hkk
  rw [getD_ioWrite, if_neg ?_]
  rintro ⟨h₁, h₂⟩
  exact hdr_body_disjoint ps p q (hdrPos ps q + kk) (by omega) (by omega)
    ⟨by omega, by omega⟩

/-- Appending to the container leaves the headers of existing pages
unchanged. -/
theorem readHeader_append (ps : Nat) (c x : List Nat) (q T : Nat)
    (halign : c.length = 10 + T * (9 + ps)) (hq : q < T) :
    workerReadHeader ps (c ++ x) q = workerReadHeader ps c q := by
  apply readHeader_congr
  intro kk hkk
  rw [getD_append, if_pos ?_]
  have := hdr_in_bounds ps q T hq
  omega

/-- A header write at page `p` leaves the header of `q ≠ p` unchanged. -/
theorem readHeader_hdr_write (ps : Nat) (c : List Nat) (p q : Nat)
    (w : List Nat) (hw : w.length ≤ 9) (hne : q ≠ p) :
    workerReadHeader ps (ioWrite c (hdrPos ps p) w) q =
      workerReadHeader ps c q := by
  apply readHeader_congr
  intro kk hkk
  rw [getD_ioWrite, if_neg ?_]
  rintro ⟨h₁, h₂⟩
  exact hdr_hdr_disjoint ps p q (hdrPos ps q + kk) (Ne.symm hne) (by omega)
    (by omega) ⟨by omega, by omega⟩

/-- Body bytes under a header write at any page are unchanged. -/
theorem getD_body_hdr_write (ps : Nat) (c : List Nat) (p q i : Nat)
    (w : List Nat) (hw : w.length ≤ 9) (hi : i < ps) :
    (ioWrite c (hdrPos ps p) w).getD (bodyPos ps q + i) 0 =
      c.getD (bodyPos ps q + i) 0 := by
  rw [getD_ioWrite, if_neg ?_]
  rintro ⟨h₁, h₂⟩
  exact hdr_body_disjoint ps q p (bodyPos ps q + i) (by omega) (by omega)
    ⟨by omega, by omega⟩

/-- Body bytes of `q ≠ p` under a body write at `p` are unchanged. -/
theorem getD_body_body_write (ps : Nat) (c : List Nat) (p off : Nat)
    (w : List Nat) (q i : Nat) (hw : off + w.length ≤ ps) (hi : i < ps)
    (hne : q ≠ p) :
    (ioWrite c (bodyPos ps p + off) w).getD (bodyPos ps q + i) 0 =
      c.getD (bodyPos ps q + i) 0 := by
  rw [getD_ioWrite, if_neg ?_]
  rintro ⟨h₁, h₂⟩
  exact body_body_disjoint ps p q (bodyPos ps q + i) (Ne.symm hne)
    (by omega) (by omega) ⟨by omega, by omega⟩

/-! ### Chain lemmas -/

theorem chainOk_head (ps : Nat) (c : List Nat) (T : Nat) :
    ∀ L p, chainOk ps c T p L = true → L[0]? = some p := by
  intro L p h
  match L with
  | [] => simp [chainOk] at h
  | [q] =>
    simp [chainOk] at h
    simp [h.1.1]
  | q :: r :: rest =>
    simp [chainOk] at h
    simp [h.1.1.1.1]

theorem chainOk_mem_lt (ps : Nat) (c : List Nat) (T : Nat) :
    ∀ L p, chainOk ps c T p L = true → ∀ q ∈ L, q < T := by
  intro L
  induction L with
  | nil =>
    intro p h
    simp [chainOk] at h
  | cons a L' ih =>
    intro p h q hq
    match L', h with
    | [], h =>
      simp [chainOk] at h
      rcases List.mem_singleton.mp hq with rfl
      exact h.1.2
    | r :: rest, h =>
      simp [chainOk] at h
      rcases List.mem_cons.mp hq with rfl | hq'
      · exact h.1.1.1.2
      · exact ih r h.2 q hq'

theorem chainOk_get (ps : Nat) (c : List Nat) (T : Nat) :
    ∀ L p, chainOk ps c T p L = true → ∀ j q, L[j]? = some q →
      q < T ∧
      (j + 1 < L.length →
        (workerReadHeader ps c q).hasNext = true ∧
        L[j + 1]? = some ((workerReadHeader ps c q).nextPageNumber)) ∧
      (j + 1 = L.length → (workerReadHeader ps c q).hasNext = false) := by
  intro L
  induction L with
  | nil =>
    intro p h
    simp [chainOk] at h
  | cons a L' ih =>
    intro p h j q hj
    match L', h with
    | [], h =>
      simp [chainOk] at h
      match j, hj with
      | 0, hj =>
        simp at hj
        subst hj
        exact ⟨h.1.2, by intro hc; simp at hc, fun _ => h.2⟩
      | jj + 1, hj => simp at hj
    | r :: rest, h =>
      simp [chainOk] at h
      match j, hj with
      | 0, hj =>
        simp at hj
        subst hj
        refine ⟨h.1.1.1.2, fun _ => ⟨h.1.1.2, ?_⟩, fun hc => by simp at hc⟩
        simp [h.1.2]
      | jj + 1, hj =>
        simp only [List.getElem?_cons_succ] at hj
        have := ih r h.2 jj q hj
        refine ⟨this.1, ?_, ?_⟩
        · intro hlt
          have hlt' : jj + 1 < (r :: rest).length := by
            simp at hlt ⊢
            omega
          exact ⟨(this.2.1 hlt').1, by
            simpa only [List.getElem?_cons_succ] using (this.2.1 hlt').2⟩
        · intro heq
          apply this.2.2
          simp at heq ⊢
          omega

theorem chainOk_congr (ps : Nat) (c c' : List Nat) (T : Nat)
    (h : ∀ q, q < T → workerReadHeader ps c' q = workerReadHeader ps c q) :
    ∀ L p, chainOk ps c T p L = true → chainOk ps c' T p L = true := by
  intro L
  induction L with
  | nil =>
    intro p hc
    simp [chainOk] at hc
  | cons a L' ih =>
    intro p hc
    match L', hc with
    | [], hc =>
      simp [chainOk] at hc ⊢
      rw [h a hc.1.2]
      exact ⟨⟨hc.1.1, hc.1.2⟩, hc.2⟩
    | r :: rest, hc =>
      simp [chainOk] at hc ⊢
      rw [h a hc.1.1.1.2]
      exact ⟨⟨⟨⟨hc.1.1.1.1, hc.1.1.1.2⟩, hc.1.1.2⟩, hc.1.2⟩, ih r hc.2⟩

theorem chainOk_mono_T (ps : Nat) (c : List Nat) (T T' : Nat) (hT : T ≤ T') :
    ∀ L p, chainOk ps c T p L = true → chainOk ps c T' p L = true := by
  intro L
  induction L with
  | nil =>
    intro p hc
    simp [chainOk] at hc
  | cons a L' ih =>
    intro p hc
    match L', hc with
    | [], hc =>
      simp [chainOk] at hc ⊢
      exact ⟨⟨hc.1.1, by omega⟩, hc.2⟩
    | r :: rest, hc =>
      simp [chainOk] at hc ⊢
      exact ⟨⟨⟨⟨hc.1.1.1.1, by omega⟩, hc.1.1.2⟩, hc.1.2⟩, ih r hc.2⟩

theorem chainOk_ne_nil (ps : Nat) (c : List Nat) (T p : Nat) (L : List Nat)
    (h : chainOk ps c T p L = true) : L ≠ [] := by
  intro hL
  subst hL
  simp [chainOk] at h

/-- Extending a chain at its tail: if only the tail's header changed (now
linking forward to `n`) and `n` is a fresh page whose header has no
forward link, the extended list is a chain. -/
theorem chainOk_snoc (ps : Nat) (c c' : List Nat) (T T' n : Nat) :
    ∀ L e p, chainOk ps c T e L = true → L.Nodup →
      L[L.length - 1]? = some p →
      (∀ q, q < T → q ≠ p → workerReadHeader ps c' q = workerReadHeader ps c q) →
      (workerReadHeader ps c' p).hasNext = true →
      (workerReadHeader ps c' p).nextPageNumber = n →
      (workerReadHeader ps c' n).hasNext = false →
      n < T' → T ≤ T' →
      chainOk ps c' T' e (L ++ [n]) = true := by
  intro L
  induction L with
  | nil =>
    intro e p hc
    simp [chainOk] at hc
  | cons a L' ih =>
    intro e p hc hnd htail hcongr hpn hpnext hnn hnT hTT
    match L', hc with
    | [], hc =>
      simp only [chainOk, Bool.and_eq_true, beq_iff_eq, decide_eq_true_eq,
        Bool.not_eq_true'] at hc
      obtain ⟨⟨hea, haT⟩, _⟩ := hc
      have hap : a = p := by simpa using htail
      subst hap
      show (e == a && decide (a < T') && (workerReadHeader ps c' a).hasNext &&
        ((workerReadHeader ps c' a).nextPageNumber == n) &&
        chainOk ps c' T' n [n]) = true
      have h1 : chainOk ps c' T' n [n] = true := by
        simp only [chainOk, Bool.and_eq_true, beq_iff_eq, decide_eq_true_eq,
          Bool.not_eq_true']
        exact ⟨⟨trivial, hnT⟩, hnn⟩
      rw [hea, hpn, hpnext, h1]
      simp [Nat.lt_of_lt_of_le haT hTT]
    | r :: rest, hc =>
      simp only [chainOk, Bool.and_eq_true, beq_iff_eq, decide_eq_true_eq] at hc
      obtain ⟨⟨⟨⟨hea, haT⟩, hnx⟩, hnr⟩, hrest⟩ := hc
      have htail' : (r :: rest)[(r :: rest).length - 1]? = some p := by
        have : (a :: r :: rest).length - 1 = (r :: rest).length - 1 + 1 := by
          simp
        rw [this] at htail
        simpa using htail
      have hmem : p ∈ r :: rest := by
        have := List.getElem?_mem htail'
        exact this
      have hane : a ≠ p := by
        intro h
        subst h
        exact (List.nodup_cons.mp hnd).1 hmem
      have hha := hcongr a haT hane
      have hrec := ih r p hrest (List.nodup_cons.mp hnd).2 htail' hcongr hpn
        hpnext hnn hnT hTT
      simp only [List.cons_append] at hrec
      show (e == a && decide (a < T') && (workerReadHeader ps c' a).hasNext &&
        ((workerReadHeader ps c' a).nextPageNumber == r) &&
        chainOk ps c' T' r (r :: (rest ++ [n]))) = true
      rw [hha, hrec, hnx, hnr, hea]
      simp [Nat.lt_of_lt_of_le haT hTT]

theorem createNext_follow (ps : Nat) (c : List Nat) (T e : Nat) (L : List Nat)
    (j p : Nat) (hchain : chainOk ps c T e L = true)
    (hj : L[j]? = some p) (hlt : j + 1 < L.length) :
    ∃ p', L[j + 1]? = some p' ∧ createNextPage ps c p = (c, p') := by
  have hg := chainOk_get ps c T L e hchain j p hj
  obtain ⟨hnext, hj1⟩ := hg.2.1 hlt
  refine ⟨_, hj1, ?_⟩
  rw [createNextPage, if_pos hnext]

theorem workerCreatePage_aligned (ps : Nat) (c : List Nat) (T : Nat)
    (parent : Option Nat) (halign : c.length = 10 + T * (9 + ps))
    (hT : T < 2 ^ 32) :
    workerCreatePage ps c parent =
      (c ++ PageHeader.toBytes
        { prevPageNumber := parent.getD 0, nextPageNumber := 0,
          hasPrev := parent.isSome, hasNext := false } ++
        List.replicate ps 0, T) := by
  rw [Prod.ext_iff]
  refine ⟨rfl, ?_⟩
  have h9 : 0 < 9 + ps := by omega
  have hspec : specCreatePageNumber ps (10 + T * (9 + ps)) = T := by
    rw [specCreatePageNumber]
    simp only [Nat.add_sub_cancel_left, Nat.mul_div_cancel T h9]
    simp
  rw [workerCreatePage_num, halign, hspec, Nat.mod_eq_of_lt hT]

/-- `create_next_page` at the chain's tail: a fresh zeroed page numbered
`T` is appended and linked forward from the tail; the chain and the page
count each grow by one, all existing page bodies are untouched, and the
new body is zeroed. -/
theorem createNext_create (ps : Nat) (c : List Nat) (T e : Nat) (L : List Nat)
    (p : Nat) (halign : c.length = 10 + T * (9 + ps))
    (hchain : chainOk ps c T e L = true) (hnd : L.Nodup)
    (htail : L[L.length - 1]? = some p) (hT : T < 2 ^ 32) :
    ∃ c', createNextPage ps c p = (c', T) ∧
      c'.length = 10 + (T + 1) * (9 + ps) ∧
      chainOk ps c' (T + 1) e (L ++ [T]) = true ∧
      (L ++ [T]).Nodup ∧
      (∀ q i, q < T → i < ps →
        c'.getD (bodyPos ps q + i) 0 = c.getD (bodyPos ps q + i) 0) ∧
      (∀ i, i < ps → c'.getD (bodyPos ps T + i) 0 = 0) := by
  have hL : L ≠ [] := chainOk_ne_nil ps c T e L hchain
  have hL1 : 1 ≤ L.length := by
    cases L with
    | nil => exact absurd rfl hL
    | cons a L' => simp
  have hg := chainOk_get ps c T L e hchain (L.length - 1) p htail
  have hp : p < T := hg.1
  have hlast : (workerReadHeader ps c p).hasNext = false := hg.2.2 (by omega)
  have hcp := workerCreatePage_aligned ps c T (some p) halign hT
  -- the appended header bytes and the container after the append
  have hc1 : (workerCreatePage ps c (some p)).1 =
      c ++ PageHeader.toBytes
        { prevPageNumber := p, nextPageNumber := 0,
          hasPrev := true, hasNext := false } ++
        List.replicate ps 0 := by
    rw [hcp]
    rfl
  have hn1 : (workerCreatePage ps c (some p)).2 = T := by rw [hcp]

  have hb9 := PageHeader.toBytes_length
    { prevPageNumber := p, nextPageNumber := 0, hasPrev := true, hasNext := false }
  have hc1len : (workerCreatePage ps c (some p)).1.length =
      c.length + (9 + ps) := by
    rw [hc1]
    simp [hb9]
  -- the header of `p` read back after the append is unchanged
  have hreadp : workerReadHeader ps (workerCreatePage ps c (some p)).1 p =
      workerReadHeader ps c p := by
    rw [hc1, List.append_assoc]
    exact readHeader_append ps c _ p T halign hp
  refine ⟨workerLinkForward ps (workerCreatePage ps c (some p)).1 p T, ?_, ?_, ?_, ?_, ?_, ?_⟩
  · rw [createNextPage, if_neg (by rw [hlast]; simp), hn1]
  · rw [workerLinkForward, ioWrite_length, hc1len, halign]
    have hbd := hdr_in_bounds ps p T hp
    have h9 := PageHeader.toBytes_length
      { workerReadHeader ps (workerCreatePage ps c (some p)).1 p with
        nextPageNumber := T, hasNext := true }
    rw [h9, Nat.add_mul, Nat.one_mul]
    omega
  · -- the extended chain
    apply chainOk_snoc ps c _ T (T + 1) T L e p hchain hnd htail
    · -- untouched headers
      intro q hq hqp
      rw [workerLinkForward]
      rw [readHeader_hdr_write ps _ p q _ (by
        rw [PageHeader.toBytes_length]) hqp]
      rw [hc1, List.append_assoc]
      exact readHeader_append ps c _ q T halign hq
    · -- the tail now links forward
      rw [workerLinkForward, workerReadHeader]
      have h9 := PageHeader.toBytes_length
        { workerReadHeader ps (workerCreatePage ps c (some p)).1 p with
          nextPageNumber := T, hasNext := true }
      rw [show (9 : Nat) = (PageHeader.toBytes
        { workerReadHeader ps (workerCreatePage ps c (some p)).1 p with
          nextPageNumber := T, hasNext := true }).length from h9.symm]
      rw [ioRead_ioWrite, fromBytes_toBytes_hasNext]
    · rw [workerLinkForward, workerReadHeader]
      have h9 := PageHeader.toBytes_length
        { workerReadHeader ps (workerCreatePage ps c (some p)).1 p with
          nextPageNumber := T, hasNext := true }
      rw [show (9 : Nat) = (PageHeader.toBytes
        { workerReadHeader ps (workerCreatePage ps c (some p)).1 p with
          nextPageNumber := T, hasNext := true }).length from h9.symm]
      rw [ioRead_ioWrite, fromBytes_toBytes_next]
      exact Nat.mod_eq_of_lt hT
    · -- the fresh page has no forward link
      have hTb : workerReadHeader ps
          (workerLinkForward ps (workerCreatePage ps c (some p)).1 p T) T =
          PageHeader.fromBytes (PageHeader.toBytes
            { prevPageNumber := p, nextPageNumber := 0,
              hasPrev := true, hasNext := false }) := by
        rw [workerLinkForward]
        rw [readHeader_hdr_write ps _ p T _ (by
          rw [PageHeader.toBytes_length]) (by omega)]
        rw [workerReadHeader]
        congr 1
        apply ext_getD
        · simp [hb9]
        · intro i hi
          have hi9 : i < 9 := by simpa using hi
          rw [ioRead_getD _ _ _ _ hi9, hc1]
          rw [getD_append, if_pos (by
            simp only [List.length_append, hb9]
            rw [hdrPos, halign]
            omega)]
          rw [getD_append, if_neg (by rw [hdrPos, halign]; omega)]
          congr 1
          rw [hdrPos, halign]
          omega
      rw [hTb, fromBytes_toBytes_hasNext]
    · omega
    · omega
  · -- Nodup of the extended chain
    rw [List.nodup_append]
    refine ⟨hnd, List.nodup_singleton T, ?_⟩
    intro a ha hmem
    have := chainOk_mem_lt ps c T L e hchain a ha
    simp at hmem
    omega
  · -- old bodies untouched
    intro q i hq hi
    have hbd := body_in_bounds ps q T hq
    rw [workerLinkForward]
    rw [getD_body_hdr_write ps _ p q i _ (by rw [PageHeader.toBytes_length]) hi]
    rw [hc1]
    rw [getD_append, if_pos (by
      simp only [List.length_append, hb9]
      rw [halign]
      omega)]
    rw [getD_append, if_pos (by rw [halign]; omega)]
  · -- the fresh page's body reads back as zeros
    intro i hi
    rw [workerLinkForward]
    rw [getD_body_hdr_write ps _ p T i _ (by rw [PageHeader.toBytes_length]) hi]
    rw [hc1]
    rw [getD_append, if_neg (by
      simp only [List.length_append, hb9]
      rw [bodyPos, hdrPos, halign]
      omega)]
    simp

theorem getQ_append_left (l m : List Nat) (i : Nat) (h : i < l.length) :
    (l ++ m)[i]? = l[i]? := by
  rw [List.getElem?_append, if_pos h]

theorem getQ_append_right (l m : List Nat) (i : Nat) (h : l.length ≤ i) :
    (l ++ m)[i]? = m[i - l.length]? := by
  rw [List.getElem?_append, if_neg (by omega)]

theorem lt_length_of_getQ {L : List Nat} {j p : Nat} (h : L[j]? = some p) :
    j < L.length := by
  by_contra hc
  rw [List.getElem?_eq_none (by omega)] at h
  exact Option.noConfusion h

/-- The seek loop starting at chain position `j`: the container comes back
with an extended chain, the position advanced by `off / ps` and the offset
reduced to `off % ps`; at most `off / ps` pages are created, all at the
old tail, old page bodies are untouched and new page bodies are zero. -/
theorem bookSeek_spec (ps : Nat) (hps : 0 < ps) :
    ∀ off c T e L j p,
      c.length = 10 + T * (9 + ps) →
      chainOk ps c T e L = true →
      L.Nodup →
      L[j]? = some p →
      T + off / ps ≤ 2 ^ 32 →
      ∃ c' T' ext p',
        bookSeek ps c p off = (c', p', off % ps) ∧
        c'.length = 10 + T' * (9 + ps) ∧
        chainOk ps c' T' e (L ++ ext) = true ∧
        (L ++ ext).Nodup ∧
        T ≤ T' ∧ T' ≤ T + off / ps ∧
        (L ++ ext)[j + off / ps]? = some p' ∧
        (∀ q i, q < T → i < ps →
          c'.getD (bodyPos ps q + i) 0 = c.getD (bodyPos ps q + i) 0) ∧
        (∀ q i, T ≤ q → q < T' → i < ps →
          c'.getD (bodyPos ps q + i) 0 = 0) := by
  intro off
  induction off using Nat.strong_induction_on with
  | _ off ih =>
    intro c T e L j p halign hchain hnd hj hbud
    by_cases hoff : ps ≤ off
    · have hdiv : off / ps = (off - ps) / ps + 1 := by
        rw [Nat.div_eq off ps, if_pos ⟨hps, hoff⟩]
      have hmod : off % ps = (off - ps) % ps := by
        rw [Nat.mod_eq off ps, if_pos ⟨hps, hoff⟩]
      rw [bookSeek, dif_pos ⟨hps, hoff⟩]
      have hjlt : j < L.length := lt_length_of_getQ hj
      by_cases htl : j + 1 < L.length
      · -- mid-chain: follow the existing link, container unchanged
        obtain ⟨p₁, hj1, hcnp⟩ := createNext_follow ps c T e L j p hchain hj htl
        obtain ⟨c', T', ext, p', hseek, halign', hchain', hnd', hT₁, hT₂,
            hidx, hpres, hzero⟩ :=
          ih (off - ps) (by omega) c T e L (j + 1) p₁ halign hchain hnd hj1
            (by omega)
        refine ⟨c', T', ext, p', ?_, halign', hchain', hnd', hT₁, by omega,
          ?_, hpres, hzero⟩
        · rw [hcnp, hmod]
          exact hseek
        · rw [show j + off / ps = j + 1 + (off - ps) / ps by omega]
          exact hidx
      · -- at the tail: create a fresh page, then continue
        have htail : L[L.length - 1]? = some p := by
          rw [show L.length - 1 = j by omega]
          exact hj
        have hT32 : T < 2 ^ 32 :=
          Nat.lt_of_lt_of_le
            (Nat.lt_add_of_pos_right ((Nat.one_le_div_iff hps).mpr hoff)) hbud
        obtain ⟨c₁, hcnp, halign₁, hchain₁, hnd₁, hpres₁, hzero₁⟩ :=
          createNext_create ps c T e L p halign hchain hnd htail hT32
        have hj1 : (L ++ [T])[j + 1]? = some T := by
          rw [getQ_append_right L [T] (j + 1) (by omega)]
          rw [show j + 1 - L.length = 0 by omega]
          rfl
        obtain ⟨c', T', ext, p', hseek, halign', hchain', hnd', hT₁, hT₂,
            hidx, hpres, hzero⟩ :=
          ih (off - ps) (by omega) c₁ (T + 1) e (L ++ [T]) (j + 1) T halign₁
            hchain₁ hnd₁ hj1 (by omega)
        refine ⟨c', T', [T] ++ ext, p', ?_, halign', ?_, ?_, by omega,
          by omega, ?_, ?_, ?_⟩
        · rw [hcnp, hmod]
          exact hseek
        · rw [← List.append_assoc]
          exact hchain'
        · rw [← List.append_assoc]
          exact hnd'
        · rw [← List.append_assoc,
            show j + off / ps = j + 1 + (off - ps) / ps by omega]
          exact hidx
        · intro q i hq hi
          rw [hpres q i (by omega) hi, hpres₁ q i hq hi]
        · intro q i hq₁ hq₂ hi
          by_cases hqT : q = T
          · subst hqT
            rw [hpres q i (by omega) hi]
            exact hzero₁ i hi
          · exact hzero q i (by omega) hq₂ hi
    · -- offset already inside the current page
      rw [bookSeek, dif_neg (fun h => hoff h.2)]
      have hd0 : off / ps = 0 := Nat.div_eq_of_lt (by omega)
      refine ⟨c, T, [], p, ?_, halign, by simpa using hchain, by simpa using hnd,
        le_refl T, by omega, ?_, fun q i _ _ => rfl, fun q i hq₁ hq₂ _ => by omega⟩
      · rw [Nat.mod_eq_of_lt (by omega)]
      · rw [hd0]
        simpa using hj

/-- The seek loop when the target position is still inside the chain: the
container is unchanged and the loop lands on the page `off / ps` links
further down the chain. -/
theorem bookSeek_follow (ps : Nat) (hps : 0 < ps) :
    ∀ off c T e L j p,
      chainOk ps c T e L = true →
      L[j]? = some p →
      j + off / ps < L.length →
      ∃ p', bookSeek ps c p off = (c, p', off % ps) ∧
        L[j + off / ps]? = some p' := by
  intro off
  induction off using Nat.strong_induction_on with
  | _ off ih =>
    intro c T e L j p hchain hj hcov
    by_cases hoff : ps ≤ off
    · have hdiv : off / ps = (off - ps) / ps + 1 := by
        rw [Nat.div_eq off ps, if_pos ⟨hps, hoff⟩]
      have hmod : off % ps = (off - ps) % ps := by
        rw [Nat.mod_eq off ps, if_pos ⟨hps, hoff⟩]
      rw [bookSeek, dif_pos ⟨hps, hoff⟩]
      have h1 : 1 ≤ off / ps := (Nat.one_le_div_iff hps).mpr hoff
      obtain ⟨p₁, hj1, hcnp⟩ := createNext_follow ps c T e L j p hchain hj
        (Nat.lt_of_le_of_lt (Nat.add_le_add_left h1 j) hcov)
      obtain ⟨p', hseek, hidx⟩ := ih (off - ps) (by omega) c T e L (j + 1) p₁
        hchain hj1 (by omega)
      refine ⟨p', ?_, ?_⟩
      · rw [hcnp, hmod]
        exact hseek
      · rw [show j + off / ps = j + 1 + (off - ps) / ps by omega]
        exact hidx
    · rw [bookSeek, dif_neg (fun h => hoff h.2)]
      have hd0 : off / ps = 0 := Nat.div_eq_of_lt (by omega)
      refine ⟨p, ?_, ?_⟩
      · rw [Nat.mod_eq_of_lt (by omega)]
      · rw [hd0]
        simpa using hj

/-- `Page::write` at an in-page offset: the head of the payload fills the
page body from `soff` and the rest is handed back as the overflow tail. -/
theorem pageWrite_chunk (ps : Nat) (c : List Nat) (p soff : Nat) (bs : List Nat)
    (h : soff < ps) (hbs : bs ≠ []) :
    pageWrite ps c p soff bs =
      (ioWrite c (bodyPos ps p + soff) (bs.take (ps - soff)),
        bs.drop (ps - soff)) := by
  have hl : 0 < bs.length := List.length_pos.mpr hbs
  show ((workerWritePage ps c p soff bs true).1,
    (workerWritePage ps c p soff bs true).2.getD []) = _
  rw [workerWritePage, if_neg (by omega), if_pos hl]
  by_cases hov : ps < soff + bs.length
  · rw [if_pos hov]
    rfl
  · rw [if_neg hov]
    rw [List.take_of_length_le (by omega), List.drop_eq_nil_of_le (by omega)]
    rfl

theorem ioWrite_length_of_le (c : List Nat) (off : Nat) (bs : List Nat)
    (h : off + bs.length ≤ c.length) : (ioWrite c off bs).length = c.length := by
  rw [ioWrite_length]
  omega

theorem getD_ioWrite_in (c : List Nat) (off : Nat) (w : List Nat) (i : Nat)
    (hi : i < w.length) :
    (ioWrite c off w).getD (off + i) 0 = w.getD i 0 := by
  rw [getD_ioWrite, if_pos (by omega)]
  congr 1
  omega

theorem nodup_getQ_ne {L : List Nat} (hnd : L.Nodup) {m m' q q' : Nat}
    (h1 : L[m]? = some q) (h2 : L[m']? = some q') (hne : m ≠ m') : q ≠ q' := by
  intro h
  subst h
  exact hne (List.getElem?_inj (lt_length_of_getQ h1) hnd (h1.trans h2.symm))

/-- One step of the write/read loops: `create_next_page` from the page at
chain position `j` lands on position `j + 1`, following the existing link
or creating (and linking) a fresh page at the tail. -/
theorem createNext_at (ps : Nat) (c : List Nat) (T e : Nat) (L : List Nat)
    (j p : Nat) (halign : c.length = 10 + T * (9 + ps))
    (hchain : chainOk ps c T e L = true) (hnd : L.Nodup)
    (hj : L[j]? = some p) (hT : T < 2 ^ 32) :
    ∃ c₁ T₁ ext₁ p₁, createNextPage ps c p = (c₁, p₁) ∧
      c₁.length = 10 + T₁ * (9 + ps) ∧
      chainOk ps c₁ T₁ e (L ++ ext₁) = true ∧
      (L ++ ext₁).Nodup ∧
      T ≤ T₁ ∧ T₁ ≤ T + 1 ∧
      (L ++ ext₁)[j + 1]? = some p₁ ∧
      j + 2 ≤ (L ++ ext₁).length ∧
      (∀ q i, q < T → i < ps →
        c₁.getD (bodyPos ps q + i) 0 = c.getD (bodyPos ps q + i) 0) := by
  have hjlt : j < L.length := lt_length_of_getQ hj
  by_cases htl : j + 1 < L.length
  · obtain ⟨p₁, hj1, hcnp⟩ := createNext_follow ps c T e L j p hchain hj htl
    exact ⟨c, T, [], p₁, hcnp, halign, by simpa using hchain, by simpa using hnd,
      le_refl T, by omega, by simpa using hj1, by simp; omega,
      fun q i _ _ => rfl⟩
  · have htail : L[L.length - 1]? = some p := by
      rw [show L.length - 1 = j by omega]
      exact hj
    obtain ⟨c₁, hcnp, halign₁, hchain₁, hnd₁, hpres₁, hzero₁⟩ :=
      createNext_create ps c T e L p halign hchain hnd htail hT
    refine ⟨c₁, T + 1, [T], T, hcnp, halign₁, hchain₁, hnd₁, by omega,
      le_refl _, ?_, by simp; omega, hpres₁⟩
    rw [getQ_append_right L [T] (j + 1) (by omega),
      show j + 1 - L.length = 0 by omega]
    rfl

/-- The write loop of `Book::write`, started at chain position `j`: it
lays the tail out over the pages at positions `j + 1`, `j + 2`, … of the
(possibly extended) chain, never touches the bodies of pages at positions
`≤ j`, and when the tail is nonempty covers exactly
`⌈tail.length / ps⌉` further chain positions. -/
theorem bookWriteLoop_spec (ps : Nat) (hps : 0 < ps) :
    ∀ n tail c T e L j p, tail.length = n →
      c.length = 10 + T * (9 + ps) →
      chainOk ps c T e L = true →
      L.Nodup →
      L[j]? = some p →
      T + (tail.length + ps - 1) / ps ≤ 2 ^ 32 →
      ∃ c' T' ext,
        bookWriteLoop ps c p tail = c' ∧
        c'.length = 10 + T' * (9 + ps) ∧
        chainOk ps c' T' e (L ++ ext) = true ∧
        (L ++ ext).Nodup ∧
        T ≤ T' ∧
        (∀ k, k < tail.length → ∃ q, (L ++ ext)[j + 1 + k / ps]? = some q ∧
          c'.getD (bodyPos ps q + k % ps) 0 = tail.getD k 0) ∧
        (∀ m q i, m ≤ j → (L ++ ext)[m]? = some q → i < ps →
          c'.getD (bodyPos ps q + i) 0 = c.getD (bodyPos ps q + i) 0) ∧
        (tail ≠ [] → j + 1 + (tail.length + ps - 1) / ps ≤ (L ++ ext).length) := by
  intro n
  induction n using Nat.strong_induction_on with
  | _ n ih =>
    intro tail c T e L j p hn halign hchain hnd hj hbud
    by_cases htne : tail = []
    · subst htne
      rw [bookWriteLoop, dif_neg (fun h => h.2 rfl)]
      exact ⟨c, T, [], rfl, halign, by simpa using hchain, by simpa using hnd,
        le_refl T, fun k hk => absurd hk (by simp),
        fun m q i _ _ _ => rfl, fun h => absurd rfl h⟩
    · have htlen : 0 < tail.length := List.length_pos.mpr htne
      have hceil1 : 1 ≤ (tail.length + ps - 1) / ps :=
        (Nat.one_le_div_iff hps).mpr (by omega)
      have hT : T < 2 ^ 32 :=
        Nat.lt_of_lt_of_le (Nat.lt_add_of_pos_right hceil1) hbud
      obtain ⟨c₁, T₁, ext₁, p₁, hstep, halign₁, hchain₁, hnd₁, hle₁, hle₁',
        hj1, hlen₁, hpres₁⟩ := createNext_at ps c T e L j p halign hchain hnd hj hT
      have hchunk := pageWrite_chunk ps c₁ p₁ 0 tail hps htne
      simp only [Nat.sub_zero, Nat.add_zero] at hchunk
      have hp₁T : p₁ < T₁ :=
        chainOk_mem_lt ps c₁ T₁ _ e hchain₁ p₁ (List.getElem?_mem hj1)
      have hwlen : (tail.take ps).length = min ps tail.length := by simp
      have halign₂ : (ioWrite c₁ (bodyPos ps p₁) (tail.take ps)).length =
          10 + T₁ * (9 + ps) := by
        rw [ioWrite_length_of_le]
        · exact halign₁
        · have := body_in_bounds ps p₁ T₁ hp₁T
          rw [halign₁]
          omega
      have hchain₂ : chainOk ps (ioWrite c₁ (bodyPos ps p₁) (tail.take ps))
          T₁ e (L ++ ext₁) = true := by
        apply chainOk_congr ps c₁ _ T₁ _ _ _ hchain₁
        intro q _
        have := readHeader_body_write ps c₁ p₁ 0 (tail.take ps) q
          (by rw [hwlen]; omega)
        simpa using this
      have hwin : ∀ i, i < (tail.take ps).length →
          (ioWrite c₁ (bodyPos ps p₁) (tail.take ps)).getD (bodyPos ps p₁ + i) 0 =
            tail.getD i 0 := by
        intro i hi
        rw [getD_ioWrite_in c₁ (bodyPos ps p₁) (tail.take ps) i hi, getD_take,
          if_pos (by rw [hwlen] at hi; omega)]
      have hother : ∀ q i, q ≠ p₁ → i < ps →
          (ioWrite c₁ (bodyPos ps p₁) (tail.take ps)).getD (bodyPos ps q + i) 0 =
            c₁.getD (bodyPos ps q + i) 0 := by
        intro q i hne hi
        have := getD_body_body_write ps c₁ p₁ 0 (tail.take ps) q i
          (by rw [hwlen]; omega) hi hne
        simpa using this
      have hloop : bookWriteLoop ps c p tail =
          bookWriteLoop ps (ioWrite c₁ (bodyPos ps p₁) (tail.take ps)) p₁
            (tail.drop ps) := by
        rw [bookWriteLoop, dif_pos ⟨hps, htne⟩, hstep]
        rw [show pageWrite ps ((c₁, p₁) : List Nat × Nat).1 (c₁, p₁).2 0 tail =
          (ioWrite c₁ (bodyPos ps p₁) (tail.take ps), tail.drop ps) from hchunk]
      by_cases hov : ps < tail.length
      · -- the tail overflows this page: recurse
        have hA : (tail.length + ps - 1) / ps = (tail.length - 1) / ps + 1 := by
          rw [Nat.div_eq (tail.length + ps - 1) ps, if_pos ⟨hps, by omega⟩,
            show tail.length + ps - 1 - ps = tail.length - 1 by omega]
        have hB : ((tail.drop ps).length + ps - 1) / ps = (tail.length - 1) / ps := by
          rw [List.length_drop, show tail.length - ps + ps - 1 = tail.length - 1 by omega]
        rw [hA] at hbud
        obtain ⟨c', T', ext', hrec, halign', hchain', hnd', hle₂, hcont', hpres',
          hcov'⟩ := ih (tail.drop ps).length (by rw [List.length_drop]; omega)
            (tail.drop ps) (ioWrite c₁ (bodyPos ps p₁) (tail.take ps)) T₁ e
            (L ++ ext₁) (j + 1) p₁ rfl halign₂ hchain₂ hnd₁ hj1
            (by rw [hB]; omega)
        refine ⟨c', T', ext₁ ++ ext', ?_, halign', ?_, ?_, by omega, ?_, ?_, ?_⟩
        · rw [hloop]
          exact hrec
        · rw [← List.append_assoc]
          exact hchain'
        · rw [← List.append_assoc]
          exact hnd'
        · -- the laid-out bytes
          intro k hk
          rw [← List.append_assoc]
          have hj1' : ((L ++ ext₁) ++ ext')[j + 1]? = some p₁ := by
            rw [getQ_append_left (L ++ ext₁) ext' (j + 1) (by omega)]
            exact hj1
          by_cases hkp : k < ps
          · refine ⟨p₁, ?_, ?_⟩
            · rw [show j + 1 + k / ps = j + 1 by rw [Nat.div_eq_of_lt hkp]]
              exact hj1'
            · rw [show k % ps = k from Nat.mod_eq_of_lt hkp]
              rw [hpres' (j + 1) p₁ k (le_refl _) hj1' hkp]
              exact hwin k (by rw [hwlen]; omega)
          · obtain ⟨q, hslot, hval⟩ := hcont' (k - ps)
              (by rw [List.length_drop]; omega)
            have hkdiv : k / ps = (k - ps) / ps + 1 := by
              rw [Nat.div_eq k ps, if_pos ⟨hps, by omega⟩]
            have hkmod : k % ps = (k - ps) % ps := by
              rw [Nat.mod_eq k ps, if_pos ⟨hps, by omega⟩]
            refine ⟨q, ?_, ?_⟩
            · rw [show j + 1 + k / ps = j + 1 + 1 + (k - ps) / ps by omega]
              exact hslot
            · rw [hkmod, hval, getD_drop,
                show ps + (k - ps) = k by omega]
        · -- bodies at positions ≤ j are untouched
          intro m q i hm hmq hi
          rw [← List.append_assoc] at hmq
          have hmlt : m < L.length := by
            have := lt_length_of_getQ hj
            omega
          have hmq₁ : (L ++ ext₁)[m]? = some q := by
            rw [getQ_append_left _ _ _ hmlt]
            rw [getQ_append_left _ _ _ (by rw [List.length_append]; omega)] at hmq
            rw [getQ_append_left _ _ _ hmlt] at hmq
            exact hmq
          have hqp₁ : q ≠ p₁ :=
            nodup_getQ_ne hnd₁ hmq₁ hj1 (by omega)
          have hqT : q < T := by
            apply chainOk_mem_lt ps c T L e hchain q
            have : L[m]? = some q := by
              rw [getQ_append_left _ _ _ hmlt] at hmq₁
              exact hmq₁
            exact List.getElem?_mem this
          rw [hpres' m q i (by omega) hmq hi, hother q i hqp₁ hi,
            hpres₁ q i hqT hi]
        · -- coverage of the written window
          intro _
          have hdne : tail.drop ps ≠ [] := by
            intro hd
            have := congrArg List.length hd
            rw [List.length_drop] at this
            simp at this
            omega
          have := hcov' hdne
          rw [hB] at this
          rw [hA]
          simp only [List.length_append] at this ⊢
          omega
      · -- the whole tail fits in this page
        have hdnil : tail.drop ps = [] := List.drop_eq_nil_of_le (by omega)
        have htake : tail.take ps = tail := List.take_of_length_le (by omega)
        refine ⟨ioWrite c₁ (bodyPos ps p₁) (tail.take ps), T₁, ext₁, ?_,
          halign₂, hchain₂, hnd₁, by omega, ?_, ?_, ?_⟩
        · rw [hloop, hdnil, bookWriteLoop, dif_neg (fun h => h.2 rfl)]
        · intro k hk
          refine ⟨p₁, ?_, ?_⟩
          · rw [show j + 1 + k / ps = j + 1 by rw [Nat.div_eq_of_lt (by omega)]]
            exact hj1
          · rw [show k % ps = k from Nat.mod_eq_of_lt (by omega)]
            exact hwin k (by rw [hwlen]; omega)
        · intro m q i hm hmq hi
          have hmlt : m < L.length := by
            have := lt_length_of_getQ hj
            omega
          have hqp₁ : q ≠ p₁ := nodup_getQ_ne hnd₁ hmq hj1 (by omega)
          have hqT : q < T := by
            apply chainOk_mem_lt ps c T L e hchain q
            have : L[m]? = some q := by
              rw [getQ_append_left _ _ _ hmlt] at hmq
              exact hmq
            exact List.getElem?_mem this
          rw [hother q i hqp₁ hi, hpres₁ q i hqT hi]
        · intro _
          have hc1 : (tail.length + ps - 1) / ps = 1 := by
            rw [Nat.div_eq (tail.length + ps - 1) ps, if_pos ⟨hps, by omega⟩,
              show tail.length + ps - 1 - ps = tail.length - 1 by omega,
              Nat.div_eq_of_lt (by omega)]
          rw [hc1]
          omega

theorem bookWrite_eq (ps : Nat) (c : List Nat) (e off : Nat) (bs : List Nat)
    (c₁ : List Nat) (p₁ o₁ : Nat) (c₂ : List Nat) (tl : List Nat)
    (h1 : bookSeek ps c e off = (c₁, p₁, o₁))
    (h2 : pageWrite ps c₁ p₁ o₁ bs = (c₂, tl)) :
    bookWrite ps c e off bs = bookWriteLoop ps c₂ p₁ tl := by
  rw [bookWrite, h1]
  rw [show pageWrite ps ((c₁, p₁, o₁) : List Nat × Nat × Nat).1
    (c₁, p₁, o₁).2.1 (c₁, p₁, o₁).2.2 bs = (c₂, tl) from h2]

/-- `Book::write` lays `bs` out over the (possibly extended) entry chain:
byte `k` of `bs` lands at byte `(off + k) % ps` of the body of the page at
chain position `(off + k) / ps`, and the whole window `[off, off + |bs|)`
is covered by the final chain. -/
theorem bookWrite_spec (ps : Nat) (hps : 0 < ps) (c : List Nat) (T e off : Nat)
    (L : List Nat) (bs : List Nat) (hbs : bs ≠ [])
    (halign : c.length = 10 + T * (9 + ps))
    (hchain : chainOk ps c T e L = true)
    (hnd : L.Nodup)
    (hbud : T + off / ps + (bs.length + ps - 1) / ps ≤ 2 ^ 32) :
    ∃ c' T' L', bookWrite ps c e off bs = c' ∧
      c'.length = 10 + T' * (9 + ps) ∧
      chainOk ps c' T' e L' = true ∧ L'.Nodup ∧
      (∀ k, k < bs.length → ∃ q, L'[(off + k) / ps]? = some q ∧
        c'.getD (bodyPos ps q + (off + k) % ps) 0 = bs.getD k 0) ∧
      off + bs.length ≤ ps * L'.length := by
  have he : L[0]? = some e := chainOk_head ps c T L e hchain
  obtain ⟨c₁, T₁, ext₁, p₁, hseek, halign₁, hchain₁, hnd₁, hle₁, hle₁', hidx₁,
    hpres₁, hzero₁⟩ := bookSeek_spec ps hps off c T e L 0 e halign hchain hnd he
    (le_trans (Nat.le_add_right _ _) hbud)
  simp only [Nat.zero_add] at hidx₁
  have hsoff : off % ps < ps := Nat.mod_lt off hps
  have hj₀lt : off / ps < (L ++ ext₁).length := lt_length_of_getQ hidx₁
  have hchunk := pageWrite_chunk ps c₁ p₁ (off % ps) bs hsoff hbs
  have hp₁ : p₁ < T₁ :=
    chainOk_mem_lt ps c₁ T₁ _ e hchain₁ p₁ (List.getElem?_mem hidx₁)
  have hwlen : (bs.take (ps - off % ps)).length = min (ps - off % ps) bs.length := by
    simp
  have htlen : (bs.drop (ps - off % ps)).length = bs.length - (ps - off % ps) := by
    simp
  have halign₂ :
      (ioWrite c₁ (bodyPos ps p₁ + off % ps) (bs.take (ps - off % ps))).length =
        10 + T₁ * (9 + ps) := by
    rw [ioWrite_length_of_le]
    · exact halign₁
    · have := body_in_bounds ps p₁ T₁ hp₁
      rw [halign₁, hwlen]
      omega
  have hchain₂ :
      chainOk ps (ioWrite c₁ (bodyPos ps p₁ + off % ps) (bs.take (ps - off % ps)))
        T₁ e (L ++ ext₁) = true := by
    apply chainOk_congr ps c₁ _ T₁ _ _ _ hchain₁
    intro q _
    exact readHeader_body_write ps c₁ p₁ (off % ps) (bs.take (ps - off % ps)) q
      (by rw [hwlen]; omega)
  have hbudLoop : T₁ + ((bs.drop (ps - off % ps)).length + ps - 1) / ps ≤ 2 ^ 32 := by
    have hmono : ((bs.drop (ps - off % ps)).length + ps - 1) / ps ≤
        (bs.length + ps - 1) / ps :=
      Nat.div_le_div_right (by rw [htlen]; omega)
    omega
  obtain ⟨c', T', ext', hrecEq, halign', hchain', hnd', hle₂, hcont', hpres',
    hcov'⟩ := bookWriteLoop_spec ps hps (bs.drop (ps - off % ps)).length
    (bs.drop (ps - off % ps))
    (ioWrite c₁ (bodyPos ps p₁ + off % ps) (bs.take (ps - off % ps)))
    T₁ e (L ++ ext₁) (off / ps) p₁ rfl halign₂ hchain₂ hnd₁ hidx₁ hbudLoop
  have hdm := Nat.div_add_mod off ps
  refine ⟨c', T', (L ++ ext₁) ++ ext', ?_, halign', hchain', hnd', ?_, ?_⟩
  · rw [bookWrite_eq ps c e off bs c₁ p₁ (off % ps) _ _ hseek hchunk]
    exact hrecEq
  · -- every written byte is found at its page/offset
    intro k hk
    have hidx₁' : ((L ++ ext₁) ++ ext')[off / ps]? = some p₁ := by
      rw [getQ_append_left (L ++ ext₁) ext' (off / ps) hj₀lt]
      exact hidx₁
    by_cases hk1 : k < ps - off % ps
    · -- the byte lies in the first chunk
      have hidxk : (off + k) / ps = off / ps := by
        rw [show off + k = ps * (off / ps) + (off % ps + k) by omega,
          Nat.mul_add_div hps,
          Nat.div_eq_of_lt (show off % ps + k < ps by omega), Nat.add_zero]
      have hmodk : (off + k) % ps = off % ps + k := by
        rw [show off + k = ps * (off / ps) + (off % ps + k) by omega,
          Nat.mul_add_mod,
          Nat.mod_eq_of_lt (show off % ps + k < ps by omega)]
      refine ⟨p₁, ?_, ?_⟩
      · rw [hidxk]
        exact hidx₁'
      · rw [hmodk]
        rw [hpres' (off / ps) p₁ (off % ps + k) (le_refl _) hidx₁' (by omega)]
        rw [show bodyPos ps p₁ + (off % ps + k) = bodyPos ps p₁ + off % ps + k by
          omega]
        rw [getD_ioWrite_in c₁ (bodyPos ps p₁ + off % ps) (bs.take (ps - off % ps))
          k (by rw [hwlen]; omega)]
        rw [getD_take, if_pos (by omega)]
    · -- the byte lies in the overflow tail
      obtain ⟨q, hslot, hval⟩ := hcont' (k - (ps - off % ps)) (by rw [htlen]; omega)
      have h1 : off + k = ps * (off / ps + 1) + (k - (ps - off % ps)) := by
        rw [Nat.mul_add, Nat.mul_one]
        omega
      have hidxk : (off + k) / ps = off / ps + 1 + (k - (ps - off % ps)) / ps := by
        rw [h1, Nat.mul_add_div hps]
      have hmodk : (off + k) % ps = (k - (ps - off % ps)) % ps := by
        rw [h1, Nat.mul_add_mod]
      refine ⟨q, ?_, ?_⟩
      · rw [hidxk]
        exact hslot
      · rw [hmodk, hval, getD_drop,
          show ps - off % ps + (k - (ps - off % ps)) = k by omega]
  · -- the window is covered by the final chain
    by_cases htl : bs.drop (ps - off % ps) = []
    · have hbl : bs.length ≤ ps - off % ps := by
        have := congrArg List.length htl
        rw [htlen] at this
        simp at this
        omega
      have hA : ps * (off / ps + 1) = ps * (off / ps) + ps := by
        rw [Nat.mul_add, Nat.mul_one]
      have hB : ps * (off / ps + 1) ≤ ps * (L ++ ext₁).length :=
        Nat.mul_le_mul_left ps (by omega)
      have hC : ps * (L ++ ext₁).length ≤ ps * ((L ++ ext₁) ++ ext').length :=
        Nat.mul_le_mul_left ps (by simp only [List.length_append]; omega)
      omega
    · have hcv := hcov' htl
      have htpos : 0 < (bs.drop (ps - off % ps)).length := List.length_pos.mpr htl
      have hceil : (bs.drop (ps - off % ps)).length ≤
          ps * (((bs.drop (ps - off % ps)).length + ps - 1) / ps) := by
        have hdm2 := Nat.div_add_mod ((bs.drop (ps - off % ps)).length + ps - 1) ps
        have hml : ((bs.drop (ps - off % ps)).length + ps - 1) % ps < ps :=
          Nat.mod_lt _ hps
        omega
      have hD : ps * (off / ps + 1 + ((bs.drop (ps - off % ps)).length + ps - 1) / ps) =
          ps * (off / ps) + ps +
            ps * (((bs.drop (ps - off % ps)).length + ps - 1) / ps) := by
        rw [Nat.mul_add, Nat.mul_add, Nat.mul_one]
      have hE : ps * (off / ps + 1 + ((bs.drop (ps - off % ps)).length + ps - 1) / ps) ≤
          ps * ((L ++ ext₁) ++ ext').length :=
        Nat.mul_le_mul_left ps hcv
      rw [htlen] at hcv htpos hceil hD hE
      omega

theorem getD_map_range (n k : Nat) (f : Nat → Nat) :
    ((List.range n).map f).getD k 0 = if k < n then f k else 0 := by
  rw [List.getD_eq_getElem?_getD, List.getElem?_map]
  by_cases h : k < n
  · rw [List.getElem?_range h, if_pos h]
    rfl
  · rw [if_neg h, List.getElem?_eq_none (by simpa using h)]
    rfl

/-- `bookByte` at a position that falls on byte `k` of the page at chain
position `m`. -/
theorem bookByte_at (ps : Nat) (hps : 0 < ps) (c : List Nat) (L : List Nat)
    (m q k : Nat) (hm : L[m]? = some q) (hk : k < ps) :
    bookByte ps c L (ps * m + k) = c.getD (bodyPos ps q + k) 0 := by
  unfold bookByte
  rw [Nat.mul_add_div hps, Nat.div_eq_of_lt hk, Nat.add_zero,
    Nat.mul_add_mod, Nat.mod_eq_of_lt hk, hm]

theorem bookRead_out (ps : Nat) (c : List Nat) (e off len : Nat)
    (c₁ : List Nat) (p₁ o₁ : Nat)
    (h1 : bookSeek ps c e off = (c₁, p₁, o₁)) :
    (bookRead ps c e off len).2 =
      workerReadPage ps c₁ p₁ o₁ len ++
        (bookReadLoop ps c₁ p₁
          (len - (workerReadPage ps c₁ p₁ o₁ len).length)).2 := by
  rw [bookRead, h1]

/-- The read loop of `Book::read`, started at chain position `j`, with its
window covered by the chain: it never modifies the container and returns
the logical bytes starting at position `j + 1` of the chain. -/
theorem bookReadLoop_covered (ps : Nat) (hps : 0 < ps) :
    ∀ len c T e L j p,
      chainOk ps c T e L = true →
      L[j]? = some p →
      len ≤ ps * (L.length - (j + 1)) →
      bookReadLoop ps c p len =
        (c, (List.range len).map (fun k =>
          bookByte ps c L (ps * (j + 1) + k))) := by
  intro len
  induction len using Nat.strong_induction_on with
  | _ len ih =>
    intro c T e L j p hchain hj hcov
    by_cases hl : 0 < len
    · have hjlt : j + 1 < L.length := by
        by_contra hcon
        rw [show L.length - (j + 1) = 0 by omega, Nat.mul_zero] at hcov
        omega
      obtain ⟨p₁, hj1, hcnp⟩ := createNext_follow ps c T e L j p hchain hj hjlt
      have hr : workerReadPage ps c p₁ 0 len =
          ioRead c (bodyPos ps p₁) (min len ps) := by
        have := workerReadPage_eq ps c p₁ 0 len hps hl
        simpa using this
      have hcov' : len - min len ps ≤ ps * (L.length - (j + 1 + 1)) := by
        by_cases hlp : len ≤ ps
        · rw [Nat.min_eq_left hlp, Nat.sub_self]
          exact Nat.zero_le _
        · have hD : 2 ≤ L.length - (j + 1) := by
            by_contra hcon
            have h1 : L.length - (j + 1) ≤ 1 := by omega
            have h2 : ps * (L.length - (j + 1)) ≤ ps * 1 :=
              Nat.mul_le_mul_left ps h1
            rw [Nat.mul_one] at h2
            omega
          rw [Nat.min_eq_right (by omega)]
          rw [show L.length - (j + 1) = L.length - (j + 1 + 1) + 1 by omega,
            Nat.mul_succ] at hcov
          omega
      have hrec := ih (len - min len ps) (by omega) c T e L (j + 1) p₁ hchain
        hj1 hcov'
      have hstep : bookReadLoop ps c p len =
          ((bookReadLoop ps c p₁ (len - (workerReadPage ps c p₁ 0 len).length)).1,
            workerReadPage ps c p₁ 0 len ++
              (bookReadLoop ps c p₁
                (len - (workerReadPage ps c p₁ 0 len).length)).2) := by
        rw [bookReadLoop, dif_pos ⟨hps, hl⟩, hcnp]
      rw [hstep, hr, ioRead_length, hrec]
      rw [Prod.ext_iff]
      refine ⟨rfl, ?_⟩
      show ioRead c (bodyPos ps p₁) (min len ps) ++
        (List.range (len - min len ps)).map _ = (List.range len).map _
      apply ext_getD
      · simp
      · intro k hk
        have hklen : k < len := by
          simp at hk
          omega
        rw [getD_append, ioRead_length]
        by_cases hkr : k < min len ps
        · rw [if_pos hkr, ioRead_getD _ _ _ _ hkr, getD_map_range,
            if_pos hklen,
            bookByte_at ps hps c L (j + 1) p₁ k hj1 (by omega)]
        · rw [if_neg hkr, getD_map_range, if_pos (by omega), getD_map_range,
            if_pos hklen]
          have hmin : min len ps = ps := by omega
          rw [hmin] at hkr ⊢
          rw [show ps * (j + 1 + 1) + (k - ps) = ps * (j + 1) + k by
            rw [Nat.mul_succ]
            omega]
    · have hlz : len = 0 := by omega
      subst hlz
      rw [bookReadLoop, dif_neg (fun h => hl h.2)]
      simp

/-- `Book::read` with the window covered by the entry chain: the output is
the logical content of the book over `[off, off + len)`. -/
theorem bookRead_covered (ps : Nat) (hps : 0 < ps) (c : List Nat)
    (T e off len : Nat) (L : List Nat)
    (hchain : chainOk ps c T e L = true)
    (hl : 0 < len)
    (hcov : off + len ≤ ps * L.length) :
    (bookRead ps c e off len).2 =
      (List.range len).map (fun k => bookByte ps c L (off + k)) := by
  have he : L[0]? = some e := chainOk_head ps c T L e hchain
  have hdm := Nat.div_add_mod off ps
  have hsoff : off % ps < ps := Nat.mod_lt off hps
  have hj₀ : off / ps < L.length := by
    by_contra hcon
    have h1 : ps * L.length ≤ ps * (off / ps) := Nat.mul_le_mul_left ps (by omega)
    omega
  obtain ⟨p₀, hseek, hidx₀⟩ := bookSeek_follow ps hps off c T e L 0 e hchain he
    (by simpa using hj₀)
  simp only [Nat.zero_add] at hidx₀
  rw [bookRead_out ps c e off len c p₀ (off % ps) hseek]
  have hr : workerReadPage ps c p₀ (off % ps) len =
      ioRead c (bodyPos ps p₀ + off % ps) (min len (ps - off % ps)) :=
    workerReadPage_eq ps c p₀ (off % ps) len hsoff hl
  rw [hr, ioRead_length]
  have hcovL : len - min len (ps - off % ps) ≤
      ps * (L.length - (off / ps + 1)) := by
    by_cases hlp : len ≤ ps - off % ps
    · rw [Nat.min_eq_left hlp, Nat.sub_self]
      exact Nat.zero_le _
    · rw [Nat.min_eq_right (by omega)]
      have h1 : ps * L.length =
          ps * (L.length - (off / ps + 1)) + (ps * (off / ps) + ps) := by
        rw [show L.length = L.length - (off / ps + 1) + (off / ps + 1) by omega]
        rw [Nat.mul_add, Nat.mul_add, Nat.mul_one]
        rw [show L.length - (off / ps + 1) + (off / ps + 1) - (off / ps + 1) =
          L.length - (off / ps + 1) by omega]
      omega
  have hrec := bookReadLoop_covered ps hps (len - min len (ps - off % ps)) c T e
    L (off / ps) p₀ hchain hidx₀ hcovL
  rw [hrec]
  apply ext_getD
  · simp
  · intro k hk
    have hklen : k < len := by
      simp at hk
      omega
    rw [getD_append, ioRead_length]
    by_cases hkr : k < min len (ps - off % ps)
    · rw [if_pos hkr, ioRead_getD _ _ _ _ hkr, getD_map_range, if_pos hklen]
      rw [show off + k = ps * (off / ps) + (off % ps + k) by omega]
      rw [bookByte_at ps hps c L (off / ps) p₀ (off % ps + k) hidx₀ (by omega)]
      rw [Nat.add_assoc]
    · rw [if_neg hkr]
      show ((List.range _).map _).getD _ 0 = _
      rw [getD_map_range, if_pos (by omega), getD_map_range, if_pos hklen]
      have hmin : min len (ps - off % ps) = ps - off % ps := by omega
      rw [hmin] at hkr ⊢
      rw [show ps * (off / ps + 1) + (k - (ps - off % ps)) = off + k by
        rw [Nat.mul_add, Nat.mul_one]
        omega]

theorem bookRead_len_zero (ps : Nat) (c : List Nat) (e off : Nat) :
    (bookRead ps c e off 0).2 = [] := by
  rw [bookRead_out ps c e off 0 (bookSeek ps c e off).1
    (bookSeek ps c e off).2.1 (bookSeek ps c e off).2.2 rfl]
  rw [workerReadPage, if_pos (Or.inr rfl)]
  rw [show (0 : Nat) - ([] : List Nat).length = 0 by rfl]
  rw [bookReadLoop, dif_neg (fun h => lt_irrefl 0 h.2)]
  rfl

theorem ioRead_one (c : List Nat) (off : Nat) :
    ioRead c off 1 = [c.getD off 0] := by
  simp [ioRead, List.range_succ]

/-- The wrap: over an all-zero container already holding `2 ^ 32` one-byte
pages, writing `[1, 2]` at offset 0 of the one-page book entered at page 0
creates the page for the second byte with the truncated number
`2 ^ 32 % 2 ^ 32 = 0`, links page 0 onto itself, and lands the second byte
on top of the first (body byte 19). -/
theorem bookWrite_wrap (c : List Nat)
    (hlen : c.length = 10 + 2 ^ 32 * 10) (hzero : ∀ i, c.getD i 0 = 0) :
    bookWrite 1 c 0 0 [1, 2] =
      ioWrite (ioWrite (ioWrite c 19 [1] ++ [0, 0, 0, 0, 0, 0, 0, 0, 1] ++
        List.replicate 1 0) 10 [0, 0, 0, 0, 0, 0, 0, 0, 2]) 19 [2] := by
  have hseekW : bookSeek 1 c 0 0 = (c, 0, 0) := by
    rw [bookSeek, dif_neg (fun h => absurd h.2 (by decide))]
  have hchunk1 : pageWrite 1 c 0 0 [1, 2] = (ioWrite c 19 [1], [2]) := by
    have h := pageWrite_chunk 1 c 0 0 [1, 2] (by decide) (by decide)
    simpa [bodyPos, hdrPos] using h
  have hlen1 : (ioWrite c 19 [1]).length = 10 + 2 ^ 32 * 10 := by
    rw [ioWrite_length, hlen]
    norm_num
  have hhdr1 : workerReadHeader 1 (ioWrite c 19 [1]) 0 =
      PageHeader.fromBytes (List.replicate 9 0) := by
    rw [workerReadHeader]
    congr 1
    apply ext_getD
    · simp
    · intro i hi
      have hi9 : i < 9 := by simpa using hi
      rw [ioRead_getD _ _ _ _ hi9,
        show hdrPos 1 0 = 10 from by decide,
        getD_ioWrite, if_neg (by rintro ⟨h1, _⟩; omega), hzero,
        getD_replicate_zero]
  have hnum : (workerCreatePage 1 (ioWrite c 19 [1]) (some 0)).2 = 0 := by
    rw [workerCreatePage_num, hlen1]
    decide
  have hcp1 : (workerCreatePage 1 (ioWrite c 19 [1]) (some 0)).1 =
      ioWrite c 19 [1] ++ [0, 0, 0, 0, 0, 0, 0, 0, 1] ++ List.replicate 1 0 := by
    show ioAppend (ioAppend (ioWrite c 19 [1]) (PageHeader.toBytes _))
      (List.replicate 1 0) = _
    rw [show PageHeader.toBytes
      { prevPageNumber := (some 0).getD 0, nextPageNumber := 0,
        hasPrev := (some 0).isSome, hasNext := false } =
      [0, 0, 0, 0, 0, 0, 0, 0, 1] from by decide]
    rfl
  have halign1 : (ioWrite c 19 [1]).length = 10 + 2 ^ 32 * (9 + 1) := by
    rw [hlen1]
  have hhdr2 : workerReadHeader 1
      (workerCreatePage 1 (ioWrite c 19 [1]) (some 0)).1 0 =
      PageHeader.fromBytes (List.replicate 9 0) := by
    rw [hcp1, List.append_assoc,
      readHeader_append 1 _ _ 0 (2 ^ 32) halign1 (by norm_num), hhdr1]
  have hcnp1 : createNextPage 1 (ioWrite c 19 [1]) 0 =
      (ioWrite (ioWrite c 19 [1] ++ [0, 0, 0, 0, 0, 0, 0, 0, 1] ++
        List.replicate 1 0) 10 [0, 0, 0, 0, 0, 0, 0, 0, 2], 0) := by
    rw [createNextPage, if_neg (by rw [hhdr1]; decide), hnum]
    rw [Prod.ext_iff]
    refine ⟨?_, rfl⟩
    show ioWrite (workerCreatePage 1 (ioWrite c 19 [1]) (some 0)).1 (hdrPos 1 0)
      (PageHeader.toBytes
        { workerReadHeader 1 (workerCreatePage 1 (ioWrite c 19 [1]) (some 0)).1 0
          with nextPageNumber := 0, hasNext := true }) = _
    rw [hhdr2, hcp1, show hdrPos 1 0 = 10 from by decide]
    congr 1
  have hchunk2 : pageWrite 1
      (ioWrite (ioWrite c 19 [1] ++ [0, 0, 0, 0, 0, 0, 0, 0, 1] ++
        List.replicate 1 0) 10 [0, 0, 0, 0, 0, 0, 0, 0, 2]) 0 0 [2] =
      (ioWrite (ioWrite (ioWrite c 19 [1] ++ [0, 0, 0, 0, 0, 0, 0, 0, 1] ++
        List.replicate 1 0) 10 [0, 0, 0, 0, 0, 0, 0, 0, 2]) 19 [2], []) := by
    have h := pageWrite_chunk 1
      (ioWrite (ioWrite c 19 [1] ++ [0, 0, 0, 0, 0, 0, 0, 0, 1] ++
        List.replicate 1 0) 10 [0, 0, 0, 0, 0, 0, 0, 0, 2]) 0 0 [2]
      (by decide) (by decide)
    simpa [bodyPos, hdrPos] using h
  rw [bookWrite_eq 1 c 0 0 [1, 2] c 0 0 (ioWrite c 19 [1]) [2] hseekW hchunk1]
  rw [bookWriteLoop, dif_pos ⟨by decide, by decide⟩, hcnp1]
  rw [show pageWrite 1
    ((ioWrite (ioWrite c 19 [1] ++ [0, 0, 0, 0, 0, 0, 0, 0, 1] ++
      List.replicate 1 0) 10 [0, 0, 0, 0, 0, 0, 0, 0, 2], (0 : Nat)) :
      List Nat × Nat).1
    (ioWrite (ioWrite c 19 [1] ++ [0, 0, 0, 0, 0, 0, 0, 0, 1] ++
      List.replicate 1 0) 10 [0, 0, 0, 0, 0, 0, 0, 0, 2], (0 : Nat)).2 0 [2] =
    (ioWrite (ioWrite (ioWrite c 19 [1] ++ [0, 0, 0, 0, 0, 0, 0, 0, 1] ++
      List.replicate 1 0) 10 [0, 0, 0, 0, 0, 0, 0, 0, 2]) 19 [2], [])
    from hchunk2]
  rw [bookWriteLoop, dif_neg (fun h => h.2 rfl)]

/-- Reading the two bytes back from the wrapped book returns the clobbered
body byte of page 0 twice. -/
theorem bookRead_wrap (c : List Nat)
    (hlen : c.length = 10 + 2 ^ 32 * 10) (hzero : ∀ i, c.getD i 0 = 0) :
    (bookRead 1 (bookWrite 1 c 0 0 [1, 2]) 0 0 2).2 = [2, 2] := by
  rw [bookWrite_wrap c hlen hzero]
  have hb19 : (ioWrite (ioWrite (ioWrite c 19 [1] ++ [0, 0, 0, 0, 0, 0, 0, 0, 1] ++
      List.replicate 1 0) 10 [0, 0, 0, 0, 0, 0, 0, 0, 2]) 19 [2]).getD 19 0 = 2 := by
    rw [getD_ioWrite, if_pos (by decide)]
    rfl
  have hhdrW : workerReadHeader 1
      (ioWrite (ioWrite (ioWrite c 19 [1] ++ [0, 0, 0, 0, 0, 0, 0, 0, 1] ++
        List.replicate 1 0) 10 [0, 0, 0, 0, 0, 0, 0, 0, 2]) 19 [2]) 0 =
      PageHeader.fromBytes [0, 0, 0, 0, 0, 0, 0, 0, 2] := by
    rw [workerReadHeader]
    congr 1
    apply ext_getD
    · simp
    · intro i hi
      have hi9 : i < 9 := by simpa using hi
      rw [ioRead_getD _ _ _ _ hi9, show hdrPos 1 0 = 10 from by decide]
      rw [getD_ioWrite, if_neg (by rintro ⟨h1, _⟩; omega)]
      rw [getD_ioWrite, if_pos (by simp; omega)]
      rw [show 10 + i - 10 = i from by omega]
  have hseekR : bookSeek 1
      (ioWrite (ioWrite (ioWrite c 19 [1] ++ [0, 0, 0, 0, 0, 0, 0, 0, 1] ++
        List.replicate 1 0) 10 [0, 0, 0, 0, 0, 0, 0, 0, 2]) 19 [2]) 0 0 =
      (ioWrite (ioWrite (ioWrite c 19 [1] ++ [0, 0, 0, 0, 0, 0, 0, 0, 1] ++
        List.replicate 1 0) 10 [0, 0, 0, 0, 0, 0, 0, 0, 2]) 19 [2], 0, 0) := by
    rw [bookSeek, dif_neg (fun h => absurd h.2 (by decide))]
  have hread1 : workerReadPage 1
      (ioWrite (ioWrite (ioWrite c 19 [1] ++ [0, 0, 0, 0, 0, 0, 0, 0, 1] ++
        List.replicate 1 0) 10 [0, 0, 0, 0, 0, 0, 0, 0, 2]) 19 [2]) 0 0 2 =
      [(ioWrite (ioWrite (ioWrite c 19 [1] ++ [0, 0, 0, 0, 0, 0, 0, 0, 1] ++
        List.replicate 1 0) 10 [0, 0, 0, 0, 0, 0, 0, 0, 2]) 19 [2]).getD 19 0] := by
    rw [workerReadPage, if_neg (by decide), if_pos (by decide),
      show bodyPos 1 0 + 0 = 19 from by decide,
      show (1 : Nat) - 0 = 1 from rfl, ioRead_one]
  have hread2 : workerReadPage 1
      (ioWrite (ioWrite (ioWrite c 19 [1] ++ [0, 0, 0, 0, 0, 0, 0, 0, 1] ++
        List.replicate 1 0) 10 [0, 0, 0, 0, 0, 0, 0, 0, 2]) 19 [2]) 0 0 1 =
      [(ioWrite (ioWrite (ioWrite c 19 [1] ++ [0, 0, 0, 0, 0, 0, 0, 0, 1] ++
        List.replicate 1 0) 10 [0, 0, 0, 0, 0, 0, 0, 0, 2]) 19 [2]).getD 19 0] := by
    rw [workerReadPage, if_neg (by decide), if_neg (by decide),
      show bodyPos 1 0 + 0 = 19 from by decide, ioRead_one]
  have hcnpR : createNextPage 1
      (ioWrite (ioWrite (ioWrite c 19 [1] ++ [0, 0, 0, 0, 0, 0, 0, 0, 1] ++
        List.replicate 1 0) 10 [0, 0, 0, 0, 0, 0, 0, 0, 2]) 19 [2]) 0 =
      (ioWrite (ioWrite (ioWrite c 19 [1] ++ [0, 0, 0, 0, 0, 0, 0, 0, 1] ++
        List.replicate 1 0) 10 [0, 0, 0, 0, 0, 0, 0, 0, 2]) 19 [2], 0) := by
    rw [createNextPage, if_pos (by rw [hhdrW]; decide)]
    rw [Prod.ext_iff]
    refine ⟨rfl, ?_⟩
    rw [hhdrW]
    show (PageHeader.fromBytes [0, 0, 0, 0, 0, 0, 0, 0, 2]).nextPageNumber = 0
    decide
  have hloopR : bookReadLoop 1
      (ioWrite (ioWrite (ioWrite c 19 [1] ++ [0, 0, 0, 0, 0, 0, 0, 0, 1] ++
        List.replicate 1 0) 10 [0, 0, 0, 0, 0, 0, 0, 0, 2]) 19 [2]) 0 1 =
      (ioWrite (ioWrite (ioWrite c 19 [1] ++ [0, 0, 0, 0, 0, 0, 0, 0, 1] ++
        List.replicate 1 0) 10 [0, 0, 0, 0, 0, 0, 0, 0, 2]) 19 [2],
        [(ioWrite (ioWrite (ioWrite c 19 [1] ++ [0, 0, 0, 0, 0, 0, 0, 0, 1] ++
          List.replicate 1 0) 10 [0, 0, 0, 0, 0, 0, 0, 0, 2]) 19 [2]).getD 19 0]) := by
    rw [bookReadLoop, dif_pos ⟨by decide, by decide⟩, hcnpR]
    rw [show workerReadPage 1
      ((ioWrite (ioWrite (ioWrite c 19 [1] ++ [0, 0, 0, 0, 0, 0, 0, 0, 1] ++
        List.replicate 1 0) 10 [0, 0, 0, 0, 0, 0, 0, 0, 2]) 19 [2], (0 : Nat)) :
        List Nat × Nat).1
      (ioWrite (ioWrite (ioWrite c 19 [1] ++ [0, 0, 0, 0, 0, 0, 0, 0, 1] ++
        List.replicate 1 0) 10 [0, 0, 0, 0, 0, 0, 0, 0, 2]) 19 [2], (0 : Nat)).2
      0 1 =
      [(ioWrite (ioWrite (ioWrite c 19 [1] ++ [0, 0, 0, 0, 0, 0, 0, 0, 1] ++
        List.replicate 1 0) 10 [0, 0, 0, 0, 0, 0, 0, 0, 2]) 19 [2]).getD 19 0]
      from hread2]
    rw [show (1 : Nat) - ([(ioWrite (ioWrite (ioWrite c 19 [1] ++
      [0, 0, 0, 0, 0, 0, 0, 0, 1] ++ List.replicate 1 0) 10
      [0, 0, 0, 0, 0, 0, 0, 0, 2]) 19 [2]).getD 19 0] : List Nat).length = 0
      from rfl]
    rw [bookReadLoop, dif_neg (fun h => lt_irrefl 0 h.2)]
    rfl
  rw [bookRead_out 1 _ 0 0 2 _ 0 0 hseekR, hread1]
  rw [show (2 : Nat) - ([(ioWrite (ioWrite (ioWrite c 19 [1] ++
    [0, 0, 0, 0, 0, 0, 0, 0, 1] ++ List.replicate 1 0) 10
    [0, 0, 0, 0, 0, 0, 0, 0, 2]) 19 [2]).getD 19 0] : List Nat).length = 1
    from rfl]
  rw [hloopR, hb19]
  rfl

/-- Counterexample to C1 as stated: the claim quantifies over *every*
book, offset and byte sequence, but the `total_pages as u32` truncation in
`CreatePage` breaks the round trip once page numbers wrap.  Over a
well-formed all-zero book of `2 ^ 32` one-byte pages (entry chain `[0]`),
writing `[1, 2]` at offset 0 creates the page for the second byte with the
wrapped number 0, links page 0 onto itself, and overwrites the first byte,
so reading 2 bytes back at offset 0 returns `[2, 2] ≠ [1, 2]`. -/
theorem c1_book_roundtrip_cex :
    chainOk 1 (List.replicate (10 + 2 ^ 32 * 10) 0) (2 ^ 32) 0 [0] = true ∧
    (bookRead 1 (bookWrite 1 (List.replicate (10 + 2 ^ 32 * 10) 0) 0 0 [1, 2])
        0 0 2).2 = [2, 2] ∧
    (bookRead 1 (bookWrite 1 (List.replicate (10 + 2 ^ 32 * 10) 0) 0 0 [1, 2])
        0 0 2).2 ≠ [1, 2] := by
  have hzero : ∀ i, (List.replicate (10 + 2 ^ 32 * 10) 0).getD i 0 = 0 :=
    fun i => getD_replicate_zero _ i
  have hlen : (List.replicate (10 + 2 ^ 32 * 10) 0).length =
      10 + 2 ^ 32 * 10 := by
    rw [List.length_replicate]
  have hrt := bookRead_wrap (List.replicate (10 + 2 ^ 32 * 10) 0) hlen hzero
  refine ⟨?_, hrt, ?_⟩
  · show (0 == 0 && decide (0 < 2 ^ 32) &&
      !(workerReadHeader 1 (List.replicate (10 + 2 ^ 32 * 10) 0) 0).hasNext) =
      true
    rw [workerReadHeader, ioRead_zero_of _ _ _ hzero]
    decide
  · rw [hrt]
    decide

/-- C1 (amended): Book round-trip below the `u32` page-number wrap.  Over
a well-formed book (page size `ps > 0`, a container of `T` pages holding a
`has_next`-linked duplicate-free entry chain `L` starting at page `e`),
provided the page count plus the pages the write window touches stays
below `2 ^ 32` — the bound the counterexample's `as u32` truncation
forces — `Book::write(off, bs)` followed by `Book::read(off, bs.len())`
returns exactly `bs`. -/
theorem c1_book_roundtrip (ps : Nat) (c : List Nat) (T e off : Nat)
    (L : List Nat) (bs : List Nat)
    (hps : 0 < ps)
    (halign : c.length = 10 + T * (9 + ps))
    (hchain : chainOk ps c T e L = true)
    (hnd : L.Nodup)
    (hbud : T + off / ps + (bs.length + ps - 1) / ps ≤ 2 ^ 32) :
    (bookRead ps (bookWrite ps c e off bs) e off bs.length).2 = bs := by
  by_cases hbs : bs = []
  · subst hbs
    exact bookRead_len_zero ps (bookWrite ps c e off []) e off
  · obtain ⟨c', T', L', hw, halign', hchain', hnd', hcont, hcov⟩ :=
      bookWrite_spec ps hps c T e off L bs hbs halign hchain hnd hbud
    rw [hw]
    have hl : 0 < bs.length := List.length_pos.mpr hbs
    rw [bookRead_covered ps hps c' T' e off bs.length L' hchain' hl hcov]
    have hpt : ∀ k, k < bs.length →
        bookByte ps c' L' (off + k) = bs.getD k 0 := by
      intro k hk
      obtain ⟨q, hslot, hval⟩ := hcont k hk
      unfold bookByte
      rw [hslot]
      exact hval
    apply ext_getD
    · simp
    · intro i hi
      have hil : i < bs.length := by simpa using hi
      rw [getD_map_range, if_pos hil, hpt i hil]

/-- Witness for C1 at a concrete input: a one-page book (`page_size = 2`,
container of one zeroed page, entry chain `[0]`), writing `[5, 6]` at
offset 3 (which crosses into a freshly created second page) and reading it
back. -/
theorem c1_book_roundtrip_wit :
    (bookRead 2 (bookWrite 2 (List.replicate 21 0) 0 3 [5, 6]) 0 3 2).2 =
      [5, 6] :=
  c1_book_roundtrip 2 (List.replicate 21 0) 1 0 3 [0] [5, 6] (by decide)
    (by decide) (by decide) (by decide) (by norm_num)

end Animefs
